import Mathlib

/-
Verification of the Othello engine (`src/board.py`) and its search AIs
(`src/ai/minimax_ai.py`, `src/ai/mcts_ai.py`).

The board is embedded as a list of rows of cells, mirroring the Python
list-of-lists representation.  Python list indexing is modelled by `pyIdx`:
an index `i` with `0 ≤ i < len` resolves to `i`, an index `-len ≤ i < 0`
aliases to `len + i`, and anything else is an `IndexError`, modelled as
`none`.  Board accesses that the source code performs after an explicit
`0 <= r < BOARD_SIZE` bounds check are modelled by the total read `cellAt`.
-/

namespace Othello

/-- The two piece colours.  In the source they are the RGB tuples `BLACK`
and `WHITE`; only their identity matters. -/
inductive Player where
  | black
  | white
deriving DecidableEq, Repr

/-- A cell of the grid: `None`, `BLACK` or `WHITE` in the source. -/
abbrev Cell := Option Player

/-- The `board` field: a list of rows, each a list of cells. -/
abbrev Grid := List (List Cell)

/-- `BOARD_SIZE` from `constants.py`. -/
def BOARD_SIZE : Nat := 8

/-- `MAX_DEPTH` from `constants.py`. -/
def MAX_DEPTH : Nat := 5

/-- Python list-index resolution: in-range indices resolve directly,
negative indices in `[-len, -1]` alias from the end, anything else is an
`IndexError` (`none`). -/
def pyIdx (len : Nat) (i : Int) : Option Nat :=
  if 0 ≤ i ∧ i < (len : Int) then some i.toNat
  else if -(len : Int) ≤ i ∧ i < 0 then some (i + len).toNat
  else none

/-- Python `l[i]` for a list. -/
def pyGet {α : Type} (l : List α) (i : Int) : Option α :=
  (pyIdx l.length i).bind fun n => l.get? n

/-- Python `l[i] = a` for a list; an unresolvable index leaves the list
unchanged (the source never reaches that case without having read the
same index first). -/
def pySet {α : Type} (l : List α) (i : Int) (a : α) : List α :=
  match pyIdx l.length i with
  | some n => l.set n a
  | none => l

/-- Python `board[r][c]`: `none` models an `IndexError`. -/
def pyGet2 (g : Grid) (r c : Int) : Option Cell :=
  (pyGet g r).bind fun row => pyGet row c

/-- Python `board[r][c] = a`. -/
def pySet2 (g : Grid) (r c : Int) (a : Cell) : Grid :=
  match pyIdx g.length r with
  | some n =>
    match g.get? n with
    | some row => g.set n (pySet row c a)
    | none => g
  | none => g

/-- Total read used for accesses the source performs under a
`0 <= r < BOARD_SIZE and 0 <= c < BOARD_SIZE` guard (where it cannot
raise on a well-formed board). -/
def cellAt (g : Grid) (r c : Int) : Cell :=
  (pyGet2 g r c).getD none

/-- The board state: the `board` grid and `current_player`. -/
structure OthelloBoard where
  board : Grid
  current_player : Player
deriving DecidableEq, Repr

/-- `OthelloBoard._opposite_color`. -/
def _opposite_color (p : Player) : Player :=
  match p with
  | .black => .white
  | .white => .black

/-- The 8 scan directions of `is_valid_move` / `make_move`. -/
def directions : List (Int × Int) :=
  [(0, 1), (1, 0), (0, -1), (-1, 0), (1, 1), (-1, -1), (1, -1), (-1, 1)]

/-- The `while 0 <= r < BOARD_SIZE and 0 <= c < BOARD_SIZE` loop of
`_would_flip`, walking away from the placed piece.  The loop runs at most
8 times (a ray meets at most 8 in-range cells), so fuel 8 is exact. -/
def wouldFlipWalk (b : OthelloBoard) (dr dc : Int) : Nat → Int → Int → Bool
  | 0, _, _ => false
  | fuel + 1, r, c =>
    if 0 ≤ r ∧ r < 8 ∧ 0 ≤ c ∧ c < 8 then
      match cellAt b.board r c with
      | none => false
      | some p =>
        if p = b.current_player then true
        else wouldFlipWalk b dr dc fuel (r + dr) (c + dc)
    else false

/-- `OthelloBoard._would_flip`. -/
def _would_flip (b : OthelloBoard) (row col dr dc : Int) : Bool :=
  let r := row + dr
  let c := col + dc
  if 0 ≤ r ∧ r < 8 ∧ 0 ≤ c ∧ c < 8 then
    if cellAt b.board r c = some (_opposite_color b.current_player) then
      wouldFlipWalk b dr dc 8 (r + dr) (c + dc)
    else false
  else false

/-- `OthelloBoard.is_valid_move`; the unguarded `self.board[row][col]`
access makes the call fallible (`none` models an `IndexError`). -/
def is_valid_move (b : OthelloBoard) (row col : Int) : Option Bool :=
  (pyGet2 b.board row col).map fun cell =>
    if cell ≠ none then false
    else directions.any fun d => _would_flip b row col d.1 d.2

/-- The `while self.board[r][c] == self._opposite_color()` loop of
`_flip_pieces`; it is only entered when `_would_flip` holds, which keeps
the walk on in-range cells. -/
def flipWalk (cur opp : Player) (dr dc : Int) : Nat → Grid → Int → Int → Grid
  | 0, g, _, _ => g
  | fuel + 1, g, r, c =>
    if cellAt g r c = some opp then
      flipWalk cur opp dr dc fuel (pySet2 g r c (some cur)) (r + dr) (c + dc)
    else g

/-- `OthelloBoard._flip_pieces`. -/
def _flip_pieces (b : OthelloBoard) (row col dr dc : Int) : OthelloBoard :=
  if _would_flip b row col dr dc then
    { b with
      board :=
        flipWalk b.current_player (_opposite_color b.current_player) dr dc 8
          b.board (row + dr) (col + dc) }
  else b

/-- `OthelloBoard.make_move`: validity check, placement, the 8 flip
passes, then the player switch.  `none` models an `IndexError` escaping
from the validity check. -/
def make_move (b : OthelloBoard) (row col : Int) : Option (Bool × OthelloBoard) :=
  (is_valid_move b row col).map fun v =>
    if v then
      let b1 : OthelloBoard :=
        { b with board := pySet2 b.board row col (some b.current_player) }
      let b2 := directions.foldl (fun acc d => _flip_pieces acc row col d.1 d.2) b1
      (true, { b2 with current_player := _opposite_color b2.current_player })
    else (false, b)

/-- `OthelloBoard.get_valid_moves`: row-major scan of the 64 cells. -/
def get_valid_moves (b : OthelloBoard) : List (Nat × Nat) :=
  ((List.range 8).map fun row =>
    (List.range 8).filterMap fun col =>
      if is_valid_move b (Int.ofNat row) (Int.ofNat col) = some true then some (row, col)
      else none).flatten

/-- `OthelloBoard.get_score`: `(black_count, white_count)`. -/
def get_score (b : OthelloBoard) : Nat × Nat :=
  ((b.board.map fun row => row.count (some Player.black)).sum,
   (b.board.map fun row => row.count (some Player.white)).sum)

/-- `OthelloBoard.clone`: the copied board holds the same cells and
player (the heap model below covers the absence of sharing). -/
def clone (b : OthelloBoard) : OthelloBoard :=
  { board := b.board, current_player := b.current_player }

/-- `OthelloBoard.is_game_over`, with the transient `current_player`
mutation and its restoration made explicit by returning the post-call
state alongside the result. -/
def is_game_over (b : OthelloBoard) : Bool × OthelloBoard :=
  if get_valid_moves b ≠ [] then (false, b)
  else
    let original_player := b.current_player
    let b1 : OthelloBoard := { b with current_player := _opposite_color b.current_player }
    let opponent_has_moves := get_valid_moves b1 ≠ []
    let b2 : OthelloBoard := { b1 with current_player := original_player }
    (!opponent_has_moves, b2)

/-- The empty 8x8 grid built by `OthelloBoard.__init__`. -/
def emptyGrid : Grid := List.replicate 8 (List.replicate 8 none)

/-- `OthelloBoard()` followed by `initialize_board()`: the four centre
pieces, Black to move. -/
def initial_board : OthelloBoard :=
  { board :=
      pySet2 (pySet2 (pySet2 (pySet2 emptyGrid 3 3 (some .white))
        3 4 (some .black)) 4 3 (some .black)) 4 4 (some .white),
    current_player := .black }

/-- Well-formed board data: an 8x8 grid, as every board built by the
source constructor is. -/
def WF (b : OthelloBoard) : Prop :=
  b.board.length = 8 ∧ ∀ row ∈ b.board, row.length = 8

instance (b : OthelloBoard) : Decidable (WF b) := by
  unfold WF; infer_instance

/-- Number of occupied cells of a grid. -/
def pieceCount (g : Grid) : Nat :=
  (g.map fun row => row.countP fun cell => cell.isSome).sum

/-- Positions reachable from the initial board through `make_move` calls
at in-range coordinates (an illegal attempt leaves the board unchanged,
so every intermediate state is reachable). -/
inductive Reachable : OthelloBoard → Prop where
  | init : Reachable initial_board
  | step {b : OthelloBoard} {r c : Nat} {v : Bool} {b' : OthelloBoard} :
      Reachable b → r < 8 → c < 8 →
      make_move b (r : Int) (c : Int) = some (v, b') → Reachable b'

/-! ## Minimax AI (`src/ai/minimax_ai.py`)

Every coefficient of `MinimaxAI._evaluate_board` is an integer multiple
of one tenth, and all of its other inputs are integers, so the float
value computed by the source is exactly `v / 10` for an integer `v`.
Evaluation values are therefore represented as integers denominated in
tenths: this is exact, strictly-monotone encoding of the source values
(float rounding is abstracted to exact arithmetic), and every
comparison or equality of search values is preserved both ways.  The
sentinels `float('-inf')` / `float('inf')` used by the search are the
bottom and top elements of `WithBot (WithTop ℤ)`. -/

/-- Search values: evaluation integers (in tenths) extended with
`-inf` (`⊥`) and `+inf`. -/
abbrev EV := WithBot (WithTop ℤ)

/-- A finite search value. -/
def qv (q : ℤ) : EV := ((q : WithTop ℤ) : EV)

/-- `float('inf')`. -/
def posInf : EV := ((⊤ : WithTop ℤ) : EV)

/-- `MinimaxAI._initialize_position_weights`. -/
def position_weights : List (List ℤ) :=
  [[1000, -100,  20,  10,  10,  20, -100, 1000],
   [-100, -200,  -5,  -5,  -5,  -5, -200, -100],
   [  20,   -5,   5,   3,   3,   5,   -5,   20],
   [  10,   -5,   3,   2,   2,   3,   -5,   10],
   [  10,   -5,   3,   2,   2,   3,   -5,   10],
   [  20,   -5,   5,   3,   3,   5,   -5,   20],
   [-100, -200,  -5,  -5,  -5,  -5, -200, -100],
   [1000, -100,  20,  10,  10,  20, -100, 1000]]

/-- `self.position_weights[row][col]` (always called in range). -/
def weightAt (r c : Nat) : ℤ :=
  (((position_weights.get? r).getD []).get? c).getD 0

/-- The four corner coordinates. -/
def corners : List (Nat × Nat) := [(0, 0), (0, 7), (7, 0), (7, 7)]

/-- `MinimaxAI.corner_adjacent`. -/
def corner_adjacent : List (Nat × Nat) :=
  [(0, 1), (1, 0), (1, 1), (0, 6), (1, 7), (1, 6),
   (6, 0), (7, 1), (6, 1), (6, 7), (7, 6), (6, 6)]

/-- In-range cell read with `Nat` coordinates. -/
def cellN (g : Grid) (r c : Nat) : Cell := cellAt g (Int.ofNat r) (Int.ofNat c)

/-- The position-weight loop of `MinimaxAI._evaluate_board`; note the
`elif` compares against `board._opposite_color()`, the opposite of the
board's *current* player (not of the AI colour). -/
def position_score_sum (ai : Player) (b : OthelloBoard) : ℤ :=
  ((List.range 8).map fun row =>
    ((List.range 8).map fun col =>
      if cellN b.board row col = some ai then weightAt row col
      else if cellN b.board row col = some (_opposite_color b.current_player) then
        -(weightAt row col)
      else 0).sum).sum

/-- `MinimaxAI._evaluate_corners` (called with `current_player` already
reset to the AI colour). -/
def _evaluate_corners (ai : Player) (b : OthelloBoard) : ℤ :=
  corners.foldl (fun acc rc =>
    if cellN b.board rc.1 rc.2 = some ai then acc + 100
    else if cellN b.board rc.1 rc.2 = some (_opposite_color b.current_player) then acc - 100
    else acc) 0

/-- One edge-cell contribution of `MinimaxAI._evaluate_edges`. -/
def edgeCellScore (ai : Player) (b : OthelloBoard) (r c : Nat) : ℤ :=
  if cellN b.board r c = some ai then 10
  else if cellN b.board r c = some (_opposite_color b.current_player) then -10
  else 0

/-- `MinimaxAI._evaluate_edges`. -/
def _evaluate_edges (ai : Player) (b : OthelloBoard) : ℤ :=
  ((List.range 6).map fun i =>
    edgeCellScore ai b 0 (i + 1) + edgeCellScore ai b 7 (i + 1)).sum
  + ((List.range 6).map fun i =>
    edgeCellScore ai b (i + 1) 0 + edgeCellScore ai b (i + 1) 7).sum

/-- `MinimaxAI._evaluate_corner_danger`. -/
def _evaluate_corner_danger (ai : Player) (b : OthelloBoard) : ℤ :=
  corner_adjacent.foldl (fun acc rc =>
    if cellN b.board rc.1 rc.2 = some ai then acc - 50
    else if cellN b.board rc.1 rc.2 = some (_opposite_color b.current_player) then acc + 50
    else acc) 0

/-- `MinimaxAI._evaluate_board`, with its mutation of `current_player`
made explicit: the mobility computation flips `current_player` and then
"resets" it to the AI's own colour, which is what the caller observes.
The function returns the value together with the post-call board.  The
returned value is denominated in tenths, so the source coefficients
`0.6, 0.4, 0.3, 0.2, 0.1, 0.8` appear as `6, 4, 3, 2, 1, 8`. -/
def _evaluate_board (ai : Player) (b : OthelloBoard) : ℤ × OthelloBoard :=
  let score := get_score b
  let total_pieces := score.1 + score.2
  let score_diff : ℤ :=
    if ai = .black then (score.1 : ℤ) - (score.2 : ℤ) else (score.2 : ℤ) - (score.1 : ℤ)
  let position_score := position_score_sum ai b
  let my_moves := (get_valid_moves b).length
  let bOpp : OthelloBoard := { b with current_player := _opposite_color b.current_player }
  let opp_moves := (get_valid_moves bOpp).length
  let bReset : OthelloBoard := { bOpp with current_player := ai }
  let mobility_score : ℤ := ((my_moves : ℤ) - (opp_moves : ℤ)) * 2
  let corner_score := _evaluate_corners ai bReset
  let edge_score := _evaluate_edges ai bReset
  let _danger_score := _evaluate_corner_danger ai bReset
  let value : ℤ :=
    if total_pieces < 20 then
      position_score * 6 + mobility_score * 4 + corner_score * 2 + score_diff * 1
    else if total_pieces < 50 then
      position_score * 4 + mobility_score * 3 + corner_score * 3
        + edge_score * 2 + score_diff * 2
    else
      score_diff * 8 + corner_score * 2 + position_score * 1
  (value, bReset)

/-- `board.clone()` followed by `make_move(*move)`, as every search step
performs it; moves always come from `get_valid_moves`, where `make_move`
cannot raise. -/
def applyM (b : OthelloBoard) (m : Nat × Nat) : OthelloBoard :=
  ((make_move b (Int.ofNat m.1) (Int.ofNat m.2)).getD (false, b)).2

/-- The maximizing move loop of `MinimaxAI._minimax`, with the recursive
call abstracted as `f`: fold max into `max_eval`, raise `alpha`, stop on
`beta <= alpha`. -/
def abMaxLoop (f : OthelloBoard → EV → EV → EV) (b : OthelloBoard) :
    List (Nat × Nat) → EV → EV → EV → EV
  | [], max_eval, _, _ => max_eval
  | move :: rest, max_eval, alpha, beta =>
    let new_board := applyM (clone b) move
    let ev := f new_board alpha beta
    let max_eval' := max max_eval ev
    let alpha' := max alpha ev
    if beta ≤ alpha' then max_eval'
    else abMaxLoop f b rest max_eval' alpha' beta

/-- The minimizing move loop of `MinimaxAI._minimax`. -/
def abMinLoop (f : OthelloBoard → EV → EV → EV) (b : OthelloBoard) :
    List (Nat × Nat) → EV → EV → EV → EV
  | [], min_eval, _, _ => min_eval
  | move :: rest, min_eval, alpha, beta =>
    let new_board := applyM (clone b) move
    let ev := f new_board alpha beta
    let min_eval' := min min_eval ev
    let beta' := min beta ev
    if beta' ≤ alpha then min_eval'
    else abMinLoop f b rest min_eval' alpha beta'

/-- `MinimaxAI._minimax`: alpha-beta search.  Depth zero evaluates; with
no legal move the turn passes (mutating the local board's player) and
either evaluates (game over) or recurses at depth−1 with the flag
flipped. -/
def _minimax (ai : Player) : Nat → OthelloBoard → EV → EV → Bool → EV
  | 0, b, _, _, _ => qv (_evaluate_board ai b).1
  | d + 1, b, alpha, beta, maximizing =>
    let vm := get_valid_moves b
    if vm = [] then
      let b' : OthelloBoard := { b with current_player := _opposite_color b.current_player }
      if get_valid_moves b' = [] then qv (_evaluate_board ai b').1
      else _minimax ai d b' alpha beta (!maximizing)
    else if maximizing then
      abMaxLoop (fun nb a bt => _minimax ai d nb a bt false) b vm ⊥ alpha beta
    else
      abMinLoop (fun nb a bt => _minimax ai d nb a bt true) b vm posInf alpha beta

/-- The maximizing loop of `_minimax` with the `beta <= alpha` cutoff
removed (the comparison definition for the pruning-equivalence claim). -/
def nopMaxLoop (f : OthelloBoard → EV → EV → EV) (b : OthelloBoard) :
    List (Nat × Nat) → EV → EV → EV → EV
  | [], max_eval, _, _ => max_eval
  | move :: rest, max_eval, alpha, beta =>
    let ev := f (applyM (clone b) move) alpha beta
    nopMaxLoop f b rest (max max_eval ev) (max alpha ev) beta

/-- The minimizing loop of `_minimax` with the cutoff removed. -/
def nopMinLoop (f : OthelloBoard → EV → EV → EV) (b : OthelloBoard) :
    List (Nat × Nat) → EV → EV → EV → EV
  | [], min_eval, _, _ => min_eval
  | move :: rest, min_eval, alpha, beta =>
    let ev := f (applyM (clone b) move) alpha beta
    nopMinLoop f b rest (min min_eval ev) alpha (min beta ev)

/-- `MinimaxAI._minimax` with both pruning cutoffs removed and nothing
else changed. -/
def _minimax_noprune (ai : Player) : Nat → OthelloBoard → EV → EV → Bool → EV
  | 0, b, _, _, _ => qv (_evaluate_board ai b).1
  | d + 1, b, alpha, beta, maximizing =>
    let vm := get_valid_moves b
    if vm = [] then
      let b' : OthelloBoard := { b with current_player := _opposite_color b.current_player }
      if get_valid_moves b' = [] then qv (_evaluate_board ai b').1
      else _minimax_noprune ai d b' alpha beta (!maximizing)
    else if maximizing then
      nopMaxLoop (fun nb a bt => _minimax_noprune ai d nb a bt false) b vm ⊥ alpha beta
    else
      nopMinLoop (fun nb a bt => _minimax_noprune ai d nb a bt true) b vm posInf alpha beta

/-- The plain minimax value of a position: the same recursion with the
window bookkeeping dropped entirely. -/
def minimaxValue (ai : Player) : Nat → OthelloBoard → Bool → EV
  | 0, b, _ => qv (_evaluate_board ai b).1
  | d + 1, b, maximizing =>
    let vm := get_valid_moves b
    if vm = [] then
      let b' : OthelloBoard := { b with current_player := _opposite_color b.current_player }
      if get_valid_moves b' = [] then qv (_evaluate_board ai b').1
      else minimaxValue ai d b' (!maximizing)
    else if maximizing then
      vm.foldl (fun acc m => max acc (minimaxValue ai d (applyM (clone b) m) false)) ⊥
    else
      vm.foldl (fun acc m => min acc (minimaxValue ai d (applyM (clone b) m) true)) posInf

/-- `(row, col) in [(0,0), (0,7), (7,0), (7,7)]`. -/
def isCorner (m : Nat × Nat) : Bool := corners.contains m

/-- `row == 0 or row == 7 or col == 0 or col == 7`. -/
def isEdge (m : Nat × Nat) : Bool := m.1 == 0 || m.1 == 7 || m.2 == 0 || m.2 == 7

/-- The candidate list actually searched by `MinimaxAI.get_move`: corner
moves if any exist, else edge moves if any exist, else all legal
moves. -/
def prioritized (b : OthelloBoard) : List (Nat × Nat) :=
  let vm := get_valid_moves b
  let corner_moves := vm.filter fun m => isCorner m
  let edge_moves := vm.filter fun m => !isCorner m && isEdge m
  if corner_moves ≠ [] then corner_moves
  else if edge_moves ≠ [] then edge_moves
  else vm

/-- The root move loop of `MinimaxAI.get_move`. -/
def topLoop (ai : Player) (b : OthelloBoard) :
    List (Nat × Nat) → EV → Option (Nat × Nat) → EV → EV → Option (Nat × Nat)
  | [], _, best_move, _, _ => best_move
  | move :: rest, best_score, best_move, alpha, beta =>
    let new_board := applyM (clone b) move
    let score := _minimax ai (MAX_DEPTH - 1) new_board alpha beta false
    let best_score' := if best_score < score then score else best_score
    let best_move' := if best_score < score then some move else best_move
    let alpha' := max alpha best_score'
    if beta ≤ alpha' then best_move'
    else topLoop ai b rest best_score' best_move' alpha' beta

/-- `MinimaxAI.get_move`. -/
def get_move (ai : Player) (b : OthelloBoard) : Option (Nat × Nat) :=
  if get_valid_moves b = [] then none
  else topLoop ai b (prioritized b) ⊥ none ⊥ posInf

/-- First-seen-wins strict argmax, the specification of the root move
loop: keep the first move whose value strictly exceeds every earlier
one. -/
def selectBest (vf : Nat × Nat → EV) : List (Nat × Nat) → EV → Option (Nat × Nat) → Option (Nat × Nat)
  | [], _, best_move => best_move
  | m :: ms, best_score, best_move =>
    if best_score < vf m then selectBest vf ms (vf m) (some m)
    else selectBest vf ms best_score best_move

/-- Fishburn's fail-soft window property: a result `r` of searching with
window `(α, β)` is exact inside the window, an upper bound on the true
value `v` when it fails low, and a lower bound when it fails high. -/
def failSoft (r v α β : EV) : Prop :=
  (r ≤ α → v ≤ r) ∧ (β ≤ r → r ≤ v) ∧ (α < r → r < β → r = v)

/-! ## MCTS AI (`src/ai/mcts_ai.py`)

The `random` module draws and the UCT child selection are modelled by
oracles `g u : Nat → Nat` threaded with a draw counter `k`:

* `random.choice(pool)` / the weighted `random.choices(valid_moves, ...)`
  pick index `g k % pool.length` (every MCTS position weight is strictly
  positive, so the weighted draw ranges over all of `valid_moves` exactly
  as an oracle-indexed pick does);
* `_select_uct` maximizes `wins/visits + c*sqrt(log(parent)/visits)` plus
  a positional bonus — a transcendental float score; which child it
  returns is modelled as the oracle pick `u k % children.length`.

All claims proved below hold for every choice of the oracles.
Simulation results (`0.0` / `1.0`) and `wins` accumulators are exact
rationals. -/

/-- `MCTSNode`: board snapshot, producing move, visit count, win total,
untried moves, children (the parent pointer is realized by the
recursive return path of `mctsIterate`). -/
inductive MCTSNode where
  | mk (board : OthelloBoard) (move : Option (Nat × Nat)) (visits : Nat) (wins : ℚ)
      (untried_moves : List (Nat × Nat)) (children : List MCTSNode)

/-- The `board` field of an `MCTSNode`. -/
def MCTSNode.board : MCTSNode → OthelloBoard
  | .mk b _ _ _ _ _ => b

/-- The `move` field of an `MCTSNode`. -/
def MCTSNode.move : MCTSNode → Option (Nat × Nat)
  | .mk _ m _ _ _ _ => m

/-- The `visits` field of an `MCTSNode`. -/
def MCTSNode.visits : MCTSNode → Nat
  | .mk _ _ v _ _ _ => v

/-- The `wins` field of an `MCTSNode`. -/
def MCTSNode.wins : MCTSNode → ℚ
  | .mk _ _ _ w _ _ => w

/-- The `untried_moves` field of an `MCTSNode`. -/
def MCTSNode.untried_moves : MCTSNode → List (Nat × Nat)
  | .mk _ _ _ _ u _ => u

/-- The `children` field of an `MCTSNode`. -/
def MCTSNode.children : MCTSNode → List MCTSNode
  | .mk _ _ _ _ _ c => c

/-- The terminal scoring of `MCTSAI._simulate`:
`1.0 if my_score > opp_score else 0.0`. -/
def simulateResult (ai : Player) (b : OthelloBoard) : ℚ :=
  let s := get_score b
  if ai = .black then (if s.2 < s.1 then 1 else 0)
  else (if s.1 < s.2 then 1 else 0)

/-- The playout loop of `MCTSAI._simulate` on the cloned board: play
oracle-chosen legal moves, passing the turn when the mover is stuck,
until neither side can move.  The `while True` loop needs at most
`2*empty_cells + 2` iterations (each pass is followed by a capture or
the game is over), so the explicit fuel never runs out in the calls
made by `get_move`; `none` models non-termination. -/
def simulateFrom (ai : Player) (g : Nat → Nat) : Nat → Nat → OthelloBoard → Option (ℚ × Nat)
  | 0, _, _ => none
  | fuel + 1, k, b =>
    let vm := get_valid_moves b
    if vm = [] then
      let b' : OthelloBoard := { b with current_player := _opposite_color b.current_player }
      if get_valid_moves b' = [] then some (simulateResult ai b', k)
      else simulateFrom ai g fuel k b'
    else
      match vm.get? (g k % vm.length) with
      | some m => simulateFrom ai g fuel (k + 1) (applyM b m)
      | none => none

/-- Fuel passed to `simulateFrom`: at least `2*64 + 2`, enough for any
8x8 board. -/
def SIM_FUEL : Nat := 130

/-- The tiered move pick of `MCTSAI._expand`: `random.choice` from the
corner tier if non-empty, else the edge tier, else the rest. -/
def tierChoice (g : Nat → Nat) (k : Nat) (untried : List (Nat × Nat)) :
    Option ((Nat × Nat) × Nat) :=
  let corner_moves := untried.filter fun m => isCorner m
  let edge_moves := untried.filter fun m => !isCorner m && isEdge m
  let other_moves := untried.filter fun m => !isCorner m && !isEdge m
  let pool :=
    if corner_moves ≠ [] then corner_moves
    else if edge_moves ≠ [] then edge_moves
    else other_moves
  (pool.get? (g k % pool.length)).map fun m => (m, k + 1)

/-- One iteration of the loop in `MCTSAI.get_move`: `_select` descends
while a node has no untried moves but has children (so the dead
re-selection guard `if not node.untried_moves and node.children` can
never fire); `_expand` adds one child at the selected node; `_simulate`
plays out from the new node (or from the selected leaf when it is
terminal); `_backpropagate` adds the result along the return path, which
realizes the walk over `parent` pointers.  Returns the updated subtree,
the simulation result and the next draw-counter value. -/
def mctsIterate (ai : Player) (g u : Nat → Nat) : Nat → MCTSNode → Option (MCTSNode × ℚ × Nat)
  | k, .mk board move visits wins untried children =>
    if untried = [] then
      match children with
      | [] =>
        (simulateFrom ai g SIM_FUEL k board).map fun rk =>
          (.mk board move (visits + 1) (wins + rk.1) [] [], rk.1, rk.2)
      | c0 :: cs =>
        let i : Fin (c0 :: cs).length :=
          ⟨u k % (c0 :: cs).length, Nat.mod_lt _ (Nat.succ_pos _)⟩
        (mctsIterate ai g u (k + 1) ((c0 :: cs).get i)).map fun res =>
          (.mk board move (visits + 1) (wins + res.2.1) [] ((c0 :: cs).set i res.1),
            res.2.1, res.2.2)
    else
      (tierChoice g k untried).bind fun mk1 =>
        let new_board := applyM (clone board) mk1.1
        (simulateFrom ai g SIM_FUEL mk1.2 new_board).map fun rk =>
          let child : MCTSNode := .mk new_board (some mk1.1) 1 rk.1 (get_valid_moves new_board) []
          (.mk board move (visits + 1) (wins + rk.1) (untried.erase mk1.1)
            (children ++ [child]), rk.1, rk.2)
termination_by _ node => sizeOf node
decreasing_by
  simp_wf
  have h : sizeOf ((c0 :: cs).get i) < sizeOf (c0 :: cs) :=
    List.sizeOf_lt_of_mem (List.get_mem _ i.1 i.2)
  simp only [List.get_eq_getElem, List.length_cons, List.cons.sizeOf_spec] at h
  omega

/-- The `for _ in range(self.iterations)` loop of `MCTSAI.get_move`. -/
def mctsLoop (ai : Player) (g u : Nat → Nat) : Nat → Nat → MCTSNode → Option MCTSNode
  | 0, _, root => some root
  | n + 1, k, root =>
    (mctsIterate ai g u k root).bind fun res => mctsLoop ai g u n res.2.2 res.1

/-- The final highest-win-rate selection of `MCTSAI.get_move` (division
by a zero visit count, which Python would fault on, yields `0` here; the
loop never creates an unvisited child). -/
def bestChild : List MCTSNode → Option (Nat × Nat) → ℚ → Option (Nat × Nat)
  | [], best_move, _ => best_move
  | c :: cs, best_move, best_win_rate =>
    let win_rate := c.wins / (c.visits : ℚ)
    if best_win_rate < win_rate then bestChild cs c.move win_rate
    else bestChild cs best_move best_win_rate

/-- `MCTSAI.get_move` with the given iteration budget; the outer level
of `Option` models a raised exception or non-termination (the theorems
below show it never occurs on well-formed boards). -/
def mcts_get_move (ai : Player) (iterations : Nat) (g u : Nat → Nat) (b : OthelloBoard) :
    Option (Option (Nat × Nat)) :=
  if get_valid_moves b = [] then some none
  else
    let root : MCTSNode := .mk b none 0 0 (get_valid_moves b) []
    (mctsLoop ai g u iterations 0 root).map fun rootF => bestChild rootF.children none (-1)

/-- Well-formedness of an MCTS (sub)tree: every node's board is an 8x8
grid and its untried moves are legal moves of that board — exactly the
state of every node the source ever builds. -/
inductive GoodTree : MCTSNode → Prop where
  | mk (board : OthelloBoard) (move : Option (Nat × Nat)) (visits : Nat) (wins : ℚ)
      (untried : List (Nat × Nat)) (children : List MCTSNode) :
      WF board →
      (∀ mv ∈ untried, mv ∈ get_valid_moves board) →
      (∀ c ∈ children, GoodTree c) →
      GoodTree (.mk board move visits wins untried children)

/-! ## Heap model for `clone` (`src/board.py`)

Whether `clone` shares mutable state with the original is invisible to a
pure value embedding, so the list-of-rows object graph is made explicit:
a heap of row arrays addressed by index, and boards holding row
references.  `clone` (`[row[:] for row in self.board]`) allocates fresh
rows; `make_move` writes through the board's own row references only —
its net heap effect is that each referenced row array ends up holding
the corresponding row of the final board value. -/

/-- The heap: every allocated row array, addressed by position. -/
abbrev Heap := List (List Cell)

/-- A board object holding references to its row arrays. -/
structure HBoard where
  rows : List Nat
  current_player : Player

/-- Dereference one row. -/
def readRow (σ : Heap) (a : Nat) : List Cell := (σ.get? a).getD []

/-- The board value a heap board denotes. -/
def viewB (σ : Heap) (hb : HBoard) : OthelloBoard :=
  { board := hb.rows.map (readRow σ), current_player := hb.current_player }

/-- `OthelloBoard.clone` on the heap: fresh row arrays holding copies of
the original rows, same `current_player`. -/
def cloneH (σ : Heap) (hb : HBoard) : Heap × HBoard :=
  (σ ++ hb.rows.map (readRow σ),
   { rows := (List.range hb.rows.length).map fun i => σ.length + i,
     current_player := hb.current_player })

/-- Store a list of rows at a list of addresses. -/
def writeRows : Heap → List Nat → Grid → Heap
  | σ, [], _ => σ
  | σ, _, [] => σ
  | σ, a1 :: rest, r1 :: rrest => writeRows (σ.set a1 r1) rest rrest

/-- `OthelloBoard.make_move` on the heap: compute the move on the board
value and write the resulting rows back through the board's own row
references. -/
def make_moveH (σ : Heap) (hb : HBoard) (row col : Int) : Option (Bool × Heap) :=
  (make_move (viewB σ hb) row col).map fun vb => (vb.1, writeRows σ hb.rows vb.2.board)

/-! ## Concrete boards used by the claims -/

/-- Fold a list of in-range moves with `make_move` (each step keeps the
board unchanged if its move is rejected). -/
def playMoves (b : OthelloBoard) (ms : List (Nat × Nat)) : OthelloBoard :=
  ms.foldl (fun acc m => ((make_move acc (Int.ofNat m.1) (Int.ofNat m.2)).getD (false, acc)).2) b

/-- A legal game prefix from the initial board after which the
negative-coordinate move `(4, -1)` is accepted. -/
def negHistory : List (Nat × Nat) :=
  [(5, 4), (5, 3), (2, 2), (3, 5), (6, 3), (4, 2), (3, 6), (2, 6),
   (3, 2), (4, 6), (4, 1), (6, 2), (4, 5), (4, 0), (5, 0), (7, 3)]

/-- The board reached by `negHistory`. -/
def negBoard : OthelloBoard := playMoves initial_board negHistory

/-- The board produced by the aliased move `(4, -1)` on `negBoard`. -/
def negBoardAfter : OthelloBoard :=
  ((make_move negBoard 4 (-1)).getD (false, negBoard)).2

/-- A two-empty-cell position (Black to move, legal moves `(0,0)` and
`(5,3)`) on which the corner filter of `MinimaxAI.get_move` discards the
strictly better interior move. -/
def cexBoard : OthelloBoard :=
  { board :=
      [[none, some .white, some .white, some .white, some .white, some .white, some .black, some .black],
       [some .white, some .white, some .white, some .black, some .black, some .black, some .white, some .white],
       [some .black, some .black, some .black, some .white, some .white, some .black, some .white, some .black],
       [some .white, some .black, some .black, some .white, some .black, some .black, some .white, some .white],
       [some .black, some .white, some .white, some .white, some .black, some .white, some .white, some .white],
       [some .white, some .black, some .black, none, some .black, some .black, some .black, some .black],
       [some .white, some .black, some .white, some .black, some .black, some .white, some .black, some .black],
       [some .black, some .white, some .black, some .white, some .black, some .white, some .white, some .black]],
    current_player := .black }

/-- An entirely occupied board (used for the terminal-detection claim). -/
def fullBoard : OthelloBoard :=
  { board := List.replicate 8 (List.replicate 8 (some .black)), current_player := .white }

/-! # Lemmas and claim theorems -/

/-! ## Index resolution -/

theorem pyIdx_ofNat (len n : Nat) :
    pyIdx len (Int.ofNat n) = if n < len then some n else none := by
  unfold pyIdx
  rw [Int.ofNat_eq_natCast]
  split
  · rename_i h
    have hn : n < len := by exact_mod_cast h.2
    rw [if_pos hn]
    simp
  · rename_i h
    have hn : ¬ n < len := fun hc => h ⟨Int.natCast_nonneg n, by exact_mod_cast hc⟩
    rw [if_neg (by omega : ¬(-(len : Int) ≤ (n : Int) ∧ (n : Int) < 0)), if_neg hn]

theorem pyIdx_isSome (len : Nat) (i : Int) (h1 : -(len : Int) ≤ i) (h2 : i < len) :
    (pyIdx len i).isSome := by
  unfold pyIdx
  rcases le_or_lt 0 i with h0 | h0
  · rw [if_pos ⟨h0, h2⟩]; rfl
  · rw [if_neg, if_pos ⟨h1, h0⟩]
    · rfl
    · rintro ⟨ha, -⟩
      omega

theorem pyIdx_none (len : Nat) (i : Int) (h : (len : Int) ≤ i ∨ i < -(len : Int)) :
    pyIdx len i = none := by
  unfold pyIdx
  rw [if_neg, if_neg]
  · rintro ⟨h1, h2⟩
    omega
  · rintro ⟨h1, h2⟩
    omega

theorem pyIdx_lt {len : Nat} {i : Int} {n : Nat} (h : pyIdx len i = some n) : n < len := by
  unfold pyIdx at h
  split at h
  · rename_i hc
    cases h
    omega
  · split at h
    · rename_i hc
      cases h
      omega
    · cases h

/-! ## Totality of board access on well-formed boards -/

theorem row_length {b : OthelloBoard} (hwf : WF b) {n : Nat} {row : List Cell}
    (h : b.board.get? n = some row) : row.length = 8 :=
  hwf.2 row (List.get?_mem h)

theorem get?_isSome_of_lt {α : Type} {l : List α} {n : Nat} (h : n < l.length) :
    (l.get? n).isSome := by
  simp [List.get?_eq_getElem?, h]

theorem pyGet2_isSome {b : OthelloBoard} (hwf : WF b) {r c : Int}
    (hr1 : -8 ≤ r) (hr2 : r < 8) (hc1 : -8 ≤ c) (hc2 : c < 8) :
    (pyGet2 b.board r c).isSome := by
  have hlen : b.board.length = 8 := hwf.1
  have h1 : (pyIdx b.board.length r).isSome := by
    rw [hlen]
    exact pyIdx_isSome 8 r (by exact_mod_cast hr1) (by exact_mod_cast hr2)
  obtain ⟨n, hn⟩ := Option.isSome_iff_exists.mp h1
  have hnlt : n < b.board.length := pyIdx_lt hn
  obtain ⟨row, hrow⟩ := Option.isSome_iff_exists.mp (get?_isSome_of_lt hnlt)
  have hrl : row.length = 8 := row_length hwf hrow
  have h2 : (pyIdx row.length c).isSome := by
    rw [hrl]
    exact pyIdx_isSome 8 c (by exact_mod_cast hc1) (by exact_mod_cast hc2)
  obtain ⟨m, hm⟩ := Option.isSome_iff_exists.mp h2
  have hmlt : m < row.length := pyIdx_lt hm
  simp only [pyGet2, pyGet, hn, hrow, hm, Option.some_bind]
  exact get?_isSome_of_lt hmlt

theorem cellAt_eq {g : Grid} {r c : Int} {x : Cell} (h : pyGet2 g r c = some x) :
    cellAt g r c = x := by
  simp [cellAt, h]

theorem pyGet2_of_cellAt {b : OthelloBoard} (hwf : WF b) {r c : Int}
    (hr1 : -8 ≤ r) (hr2 : r < 8) (hc1 : -8 ≤ c) (hc2 : c < 8) :
    pyGet2 b.board r c = some (cellAt b.board r c) := by
  obtain ⟨x, hx⟩ := Option.isSome_iff_exists.mp (pyGet2_isSome hwf hr1 hr2 hc1 hc2)
  rw [hx, cellAt_eq hx]

theorem is_valid_move_eq {b : OthelloBoard} (hwf : WF b) {r c : Int}
    (hr1 : -8 ≤ r) (hr2 : r < 8) (hc1 : -8 ≤ c) (hc2 : c < 8) :
    is_valid_move b r c =
      some (if cellAt b.board r c ≠ none then false
        else directions.any fun d => _would_flip b r c d.1 d.2) := by
  rw [is_valid_move, pyGet2_of_cellAt hwf hr1 hr2 hc1 hc2]
  rfl

/-! ## `get_valid_moves` membership -/

theorem mem_get_valid_moves {b : OthelloBoard} {m : Nat × Nat} :
    m ∈ get_valid_moves b ↔
      m.1 < 8 ∧ m.2 < 8 ∧
        is_valid_move b (Int.ofNat m.1) (Int.ofNat m.2) = some true := by
  obtain ⟨r, c⟩ := m
  constructor
  · intro h
    simp only [get_valid_moves, List.mem_flatten, List.mem_map] at h
    obtain ⟨l, ⟨row, hrow, rfl⟩, hmem⟩ := h
    rw [List.mem_filterMap] at hmem
    obtain ⟨col, hcol, hif⟩ := hmem
    rw [List.mem_range] at hrow
    rw [List.mem_range] at hcol
    rw [Option.ite_none_right_eq_some, Option.some.injEq, Prod.mk.injEq] at hif
    obtain ⟨hv, rfl, rfl⟩ := hif
    exact ⟨hrow, hcol, hv⟩
  · rintro ⟨hr, hc, hv⟩
    simp only [get_valid_moves, List.mem_flatten, List.mem_map]
    refine ⟨_, ⟨r, List.mem_range.mpr hr, rfl⟩, ?_⟩
    rw [List.mem_filterMap]
    exact ⟨c, List.mem_range.mpr hc, by rw [if_pos hv]⟩

theorem get_valid_moves_nil_iff {b : OthelloBoard} :
    get_valid_moves b = [] ↔
      ∀ r c : Nat, r < 8 → c < 8 →
        is_valid_move b (Int.ofNat r) (Int.ofNat c) ≠ some true := by
  rw [List.eq_nil_iff_forall_not_mem]
  constructor
  · intro h r c hr hc hv
    exact h (r, c) (mem_get_valid_moves.mpr ⟨hr, hc, hv⟩)
  · rintro h ⟨r, c⟩ hm
    obtain ⟨hr, hc, hv⟩ := mem_get_valid_moves.mp hm
    exact h r c hr hc hv

/-- Helper: a move reported valid has an empty target cell. -/
theorem cell_empty_of_valid {b : OthelloBoard} {r c : Int}
    (h : is_valid_move b r c = some true) : cellAt b.board r c = none := by
  unfold is_valid_move at h
  cases hpg : pyGet2 b.board r c with
  | none => rw [hpg] at h; cases h
  | some x =>
    rw [hpg] at h
    simp only [Option.map_some'] at h
    by_cases hx : x = none
    · rw [cellAt_eq hpg, hx]
    · rw [if_pos] at h
      · cases h
      · simpa using hx

/-! ## C1: `make_move` returns `False` on illegal moves without touching
the state, `True` exactly on legal moves -/

/-- C1: for every well-formed board and in-range coordinate, `make_move`
succeeds, returns `True` exactly when the target cell is empty and some
direction has a would-flip line, and on `False` hands back the board
completely unchanged. -/
theorem make_move_eq_invalid {b : OthelloBoard} {r c : Int}
    (h : is_valid_move b r c = some false) : make_move b r c = some (false, b) := by
  rw [make_move, h]
  rfl

theorem make_move_eq_valid {b : OthelloBoard} {r c : Int}
    (h : is_valid_move b r c = some true) : ∃ b', make_move b r c = some (true, b') := by
  rw [make_move, h]
  exact ⟨_, rfl⟩

theorem make_move_legal_iff (b : OthelloBoard) (hwf : WF b) (r c : Nat)
    (hr : r < 8) (hc : c < 8) :
    ∃ v b', make_move b (Int.ofNat r) (Int.ofNat c) = some (v, b') ∧
      (v = true ↔ (cellAt b.board (Int.ofNat r) (Int.ofNat c) = none ∧
        (directions.any fun d => _would_flip b (Int.ofNat r) (Int.ofNat c) d.1 d.2) = true)) ∧
      (v = false → b' = b) := by
  have hri1 : (-8 : Int) ≤ Int.ofNat r := by rw [Int.ofNat_eq_natCast]; omega
  have hri2 : Int.ofNat r < 8 := by rw [Int.ofNat_eq_natCast]; omega
  have hci1 : (-8 : Int) ≤ Int.ofNat c := by rw [Int.ofNat_eq_natCast]; omega
  have hci2 : Int.ofNat c < 8 := by rw [Int.ofNat_eq_natCast]; omega
  have hiv := is_valid_move_eq hwf hri1 hri2 hci1 hci2
  by_cases hcell : cellAt b.board (Int.ofNat r) (Int.ofNat c) = none
  · by_cases hany :
      (directions.any fun d => _would_flip b (Int.ofNat r) (Int.ofNat c) d.1 d.2) = true
    · have ht : is_valid_move b (Int.ofNat r) (Int.ofNat c) = some true := by
        rw [hiv, if_neg (not_not_intro hcell), hany]
      obtain ⟨b', hb'⟩ := make_move_eq_valid ht
      exact ⟨true, b', hb', ⟨fun _ => ⟨hcell, hany⟩, fun _ => rfl⟩, fun h => by cases h⟩
    · have hf : is_valid_move b (Int.ofNat r) (Int.ofNat c) = some false := by
        rw [hiv, if_neg (not_not_intro hcell)]
        simpa using hany
      refine ⟨false, b, make_move_eq_invalid hf, ?_, fun _ => rfl⟩
      constructor
      · intro h
        cases h
      · rintro ⟨-, h2⟩
        exact absurd h2 hany
  · have hf : is_valid_move b (Int.ofNat r) (Int.ofNat c) = some false := by
      rw [hiv, if_pos hcell]
    refine ⟨false, b, make_move_eq_invalid hf, ?_, fun _ => rfl⟩
    constructor
    · intro h
      cases h
    · rintro ⟨h1, -⟩
      exact absurd h1 hcell

/-- C1 witness: the opening move `(2, 3)` on the initial board. -/
theorem make_move_legal_iff_witness :
    WF initial_board ∧
      (∃ v b', make_move initial_board (Int.ofNat 2) (Int.ofNat 3) = some (v, b') ∧
        (v = true ↔ (cellAt initial_board.board (Int.ofNat 2) (Int.ofNat 3) = none ∧
          (directions.any fun d =>
            _would_flip initial_board (Int.ofNat 2) (Int.ofNat 3) d.1 d.2) = true)) ∧
        (v = false → b' = initial_board)) :=
  ⟨by decide, make_move_legal_iff initial_board (by decide) 2 3 (by decide) (by decide)⟩

/-! ## C2: the initial position -/

/-- C2: the fresh board has exactly four occupied cells — Black at
`(3,4)`, `(4,3)`, White at `(3,3)`, `(4,4)` — Black to move, and its
legal moves are exactly `(2,3)`, `(3,2)`, `(4,5)`, `(5,4)`. -/
theorem initial_board_spec :
    pieceCount initial_board.board = 4 ∧
    get_score initial_board = (2, 2) ∧
    cellN initial_board.board 3 4 = some .black ∧
    cellN initial_board.board 4 3 = some .black ∧
    cellN initial_board.board 3 3 = some .white ∧
    cellN initial_board.board 4 4 = some .white ∧
    initial_board.current_player = .black ∧
    get_valid_moves initial_board = [(2, 3), (3, 2), (4, 5), (5, 4)] := by
  decide

/-! ## C3: terminal detection -/

/-- C3: `is_game_over` holds exactly when neither the active player nor
the opponent has a legal move, the transient `current_player` swap is
always restored, and a fully occupied board is terminal. -/
theorem is_game_over_spec (b : OthelloBoard) :
    (is_game_over b).2 = b ∧
    ((is_game_over b).1 = true ↔
      (get_valid_moves b = [] ∧
        get_valid_moves { b with current_player := _opposite_color b.current_player } = [])) ∧
    ((∀ r : Nat, r < 8 → ∀ c : Nat, c < 8 → cellN b.board r c ≠ none) →
      (is_game_over b).1 = true) := by
  refine ⟨?_, ?_, ?_⟩
  · rw [is_game_over]
    split
    · rfl
    · rfl
  · rw [is_game_over]
    split
    · rename_i h
      simp only [show ((false, b).1 = true) = False by simp]
      constructor
      · intro hf
        cases hf
      · rintro ⟨h1, -⟩
        exact h h1
    · rename_i h
      simp only [not_not] at h
      simp [h]
  · intro hfull
    have hvalid : ∀ bb : OthelloBoard, bb.board = b.board → get_valid_moves bb = [] := by
      intro bb hbb
      apply get_valid_moves_nil_iff.mpr
      intro r c hr hc hv
      have := cell_empty_of_valid hv
      rw [hbb] at this
      exact hfull r hr c hc this
    rw [is_game_over]
    rw [if_neg (by simp [hvalid b rfl])]
    simp [hvalid { b with current_player := _opposite_color b.current_player } rfl]

/-- C3 witness: a completely occupied board is terminal. -/
theorem is_game_over_spec_witness :
    (∀ r : Nat, r < 8 → ∀ c : Nat, c < 8 → cellN fullBoard.board r c ≠ none) ∧
      (is_game_over fullBoard).1 = true :=
  ⟨by decide, (is_game_over_spec fullBoard).2.2 (by decide)⟩

/-! ## C10: `_evaluate_board` mutates `current_player` -/

/-- C10: `_evaluate_board` leaves the cells alone but exits with
`current_player` equal to the AI's own colour, so whenever the board
entered with the other colour to move, its active player has changed
after the call. -/
theorem evaluate_board_mutates (ai : Player) (b : OthelloBoard) :
    ((_evaluate_board ai b).2).board = b.board ∧
    (_evaluate_board ai b).2.current_player = ai ∧
    (b.current_player ≠ ai → (_evaluate_board ai b).2.current_player ≠ b.current_player) := by
  refine ⟨rfl, rfl, ?_⟩
  intro h hc
  have hpost : (_evaluate_board ai b).2.current_player = ai := rfl
  exact h (hc.symm.trans hpost)

/-- C10 witness: a White-to-move board evaluated by a Black AI exits
with Black to move. -/
theorem evaluate_board_mutates_witness :
    ({ initial_board with current_player := Player.white } : OthelloBoard).current_player
        ≠ Player.black ∧
      (_evaluate_board Player.black
          { initial_board with current_player := Player.white }).2.current_player
        ≠ ({ initial_board with current_player := Player.white } : OthelloBoard).current_player :=
  ⟨by decide,
    (evaluate_board_mutates Player.black
      { initial_board with current_player := Player.white }).2.2 (by decide)⟩

/-! ## Piece counting: placements add one piece, flips only recolor -/

theorem countP_set {α : Type} (p : α → Bool) :
    ∀ (l : List α) (n : Nat) (a x : α), l.get? n = some x →
      (l.set n a).countP p + (if p x then 1 else 0) = l.countP p + (if p a then 1 else 0) := by
  intro l
  induction l with
  | nil => intro n a x h; cases h
  | cons b l ih =>
    intro n a x h
    cases n with
    | zero =>
      cases h
      simp only [List.set_cons_zero, List.countP_cons]
      omega
    | succ n =>
      have := ih n a x h
      simp only [List.set_cons_succ, List.countP_cons]
      omega

theorem summap_set {α : Type} (f : α → Nat) :
    ∀ (g : List α) (n : Nat) (r' row : α), g.get? n = some row →
      ((g.set n r').map f).sum + f row = (g.map f).sum + f r' := by
  intro g
  induction g with
  | nil => intro n r' row h; cases h
  | cons b g ih =>
    intro n r' row h
    cases n with
    | zero =>
      cases h
      simp only [List.set_cons_zero, List.map_cons, List.sum_cons]
      omega
    | succ n =>
      have := ih n r' row h
      simp only [List.set_cons_succ, List.map_cons, List.sum_cons]
      omega

theorem cellAt_some_pyGet2 {g : Grid} {r c : Int} {y : Player}
    (h : cellAt g r c = some y) : pyGet2 g r c = some (some y) := by
  unfold cellAt at h
  cases hpg : pyGet2 g r c with
  | none => rw [hpg] at h; cases h
  | some z =>
    rw [hpg] at h
    simp only [Option.getD_some] at h
    rw [h]

theorem pieceCount_pySet2 {g : Grid} {r c : Int} {x : Cell} (a : Cell)
    (h : pyGet2 g r c = some x) :
    pieceCount (pySet2 g r c a) + (if x.isSome then 1 else 0)
      = pieceCount g + (if a.isSome then 1 else 0) := by
  unfold pyGet2 pyGet at h
  cases hn : pyIdx g.length r with
  | none => rw [hn] at h; cases h
  | some n =>
    rw [hn] at h
    simp only [Option.some_bind] at h
    cases hrow : g.get? n with
    | none => rw [hrow] at h; cases h
    | some row =>
      rw [hrow] at h
      simp only [Option.some_bind] at h
      cases hm : pyIdx row.length c with
      | none => rw [hm] at h; cases h
      | some m =>
        rw [hm] at h
        simp only [Option.some_bind] at h
        have hset : pySet2 g r c a = g.set n (row.set m a) := by
          unfold pySet2 pySet
          simp only [hn, hrow, hm]
        rw [hset]
        have h1' : ((g.set n (row.set m a)).map
              (fun row => row.countP fun cell => cell.isSome)).sum
              + row.countP (fun cell => cell.isSome)
            = (g.map (fun row => row.countP fun cell => cell.isSome)).sum
              + (row.set m a).countP (fun cell => cell.isSome) :=
          summap_set (fun row => row.countP fun cell => cell.isSome)
            g n (row.set m a) row hrow
        have h2' : (row.set m a).countP (fun cell => cell.isSome)
              + (if x.isSome then 1 else 0)
            = row.countP (fun cell => cell.isSome) + (if a.isSome then 1 else 0) :=
          countP_set (fun cell => cell.isSome) row m a x h
        unfold pieceCount
        omega

theorem flipWalk_pieceCount (cur opp : Player) (dr dc : Int) :
    ∀ (fuel : Nat) (g : Grid) (r c : Int),
      pieceCount (flipWalk cur opp dr dc fuel g r c) = pieceCount g := by
  intro fuel
  induction fuel with
  | zero => intro g r c; rfl
  | succ n ih =>
    intro g r c
    rw [flipWalk]
    split
    · rename_i hcell
      rw [ih]
      have hx : pyGet2 g r c = some (some opp) := cellAt_some_pyGet2 hcell
      have := pieceCount_pySet2 (some cur) hx
      simpa using this
    · rfl

/-! ## Shape preservation -/

theorem pySet_length {α : Type} (l : List α) (i : Int) (a : α) :
    (pySet l i a).length = l.length := by
  unfold pySet
  split
  · exact List.length_set _ _ _
  · rfl

theorem pySet2_shape {g : Grid} (h1 : g.length = 8) (h2 : ∀ row ∈ g, row.length = 8)
    (r c : Int) (a : Cell) :
    (pySet2 g r c a).length = 8 ∧ ∀ row ∈ pySet2 g r c a, row.length = 8 := by
  unfold pySet2
  split
  · rename_i n hn
    split
    · rename_i row₀ hrow₀
      refine ⟨by rw [List.length_set]; exact h1, ?_⟩
      intro row hrow
      rcases List.mem_or_eq_of_mem_set hrow with hmem | rfl
      · exact h2 row hmem
      · rw [pySet_length]
        exact h2 row₀ (List.get?_mem hrow₀)
    · exact ⟨h1, h2⟩
  · exact ⟨h1, h2⟩

theorem flipWalk_shape (cur opp : Player) (dr dc : Int) :
    ∀ (fuel : Nat) (g : Grid), g.length = 8 → (∀ row ∈ g, row.length = 8) →
      ∀ (r c : Int),
        (flipWalk cur opp dr dc fuel g r c).length = 8 ∧
          ∀ row ∈ flipWalk cur opp dr dc fuel g r c, row.length = 8 := by
  intro fuel
  induction fuel with
  | zero => intro g hg1 hg2 r c; exact ⟨hg1, hg2⟩
  | succ n ih =>
    intro g hg1 hg2 r c
    rw [flipWalk]
    split
    · have hs := pySet2_shape hg1 hg2 r c (some cur)
      exact ih _ hs.1 hs.2 _ _
    · exact ⟨hg1, hg2⟩

theorem _flip_pieces_spec (b : OthelloBoard) (row col dr dc : Int) :
    pieceCount (_flip_pieces b row col dr dc).board = pieceCount b.board ∧
      (_flip_pieces b row col dr dc).current_player = b.current_player ∧
      (WF b → WF (_flip_pieces b row col dr dc)) := by
  unfold _flip_pieces
  split
  · refine ⟨flipWalk_pieceCount _ _ _ _ _ _ _ _, rfl, ?_⟩
    intro hwf
    exact flipWalk_shape _ _ _ _ _ _ hwf.1 hwf.2 _ _
  · exact ⟨rfl, rfl, fun h => h⟩

theorem foldl_flip_spec (ds : List (Int × Int)) (b : OthelloBoard) (row col : Int) :
    pieceCount ((ds.foldl (fun acc d => _flip_pieces acc row col d.1 d.2) b).board)
        = pieceCount b.board ∧
      (ds.foldl (fun acc d => _flip_pieces acc row col d.1 d.2) b).current_player
        = b.current_player ∧
      (WF b → WF (ds.foldl (fun acc d => _flip_pieces acc row col d.1 d.2) b)) := by
  induction ds generalizing b with
  | nil => exact ⟨rfl, rfl, fun h => h⟩
  | cons d ds ih =>
    simp only [List.foldl_cons]
    obtain ⟨hc, hp, hw⟩ := _flip_pieces_spec b row col d.1 d.2
    obtain ⟨ihc, ihp, ihw⟩ := ih (_flip_pieces b row col d.1 d.2)
    exact ⟨ihc.trans hc, ihp.trans hp, fun h => ihw (hw h)⟩

/-! ## `make_move` totality and effect -/

theorem make_move_isSome {b : OthelloBoard} (hwf : WF b) {r c : Int}
    (hr1 : -8 ≤ r) (hr2 : r < 8) (hc1 : -8 ≤ c) (hc2 : c < 8) :
    (make_move b r c).isSome := by
  obtain ⟨x, hx⟩ := Option.isSome_iff_exists.mp (pyGet2_isSome hwf hr1 hr2 hc1 hc2)
  unfold make_move is_valid_move
  rw [hx]
  rfl

theorem pyGet2_some_of_valid {b : OthelloBoard} {r c : Int} {v : Bool}
    (h : is_valid_move b r c = some v) :
    pyGet2 b.board r c = some (cellAt b.board r c) := by
  unfold is_valid_move at h
  cases hpg : pyGet2 b.board r c with
  | none => rw [hpg] at h; cases h
  | some x => rw [cellAt_eq hpg]

theorem make_move_false_eq {b : OthelloBoard} {r c : Int} {b' : OthelloBoard}
    (h : make_move b r c = some (false, b')) : b' = b := by
  unfold make_move at h
  cases hiv : is_valid_move b r c with
  | none => rw [hiv] at h; cases h
  | some v =>
    rw [hiv] at h
    simp only [Option.map_some'] at h
    cases v with
    | true => simp at h
    | false =>
      simp only [Bool.false_eq_true, if_false, Option.some.injEq, Prod.mk.injEq] at h
      exact h.2.symm

theorem make_move_true_spec {b : OthelloBoard} (hwf : WF b) {r c : Int} {b' : OthelloBoard}
    (h : make_move b r c = some (true, b')) :
    pieceCount b'.board = pieceCount b.board + 1 ∧ WF b' := by
  unfold make_move at h
  cases hiv : is_valid_move b r c with
  | none => rw [hiv] at h; cases h
  | some v =>
    rw [hiv] at h
    simp only [Option.map_some'] at h
    cases v with
    | false => simp at h
    | true =>
      simp only [if_true, Option.some.injEq, Prod.mk.injEq, true_and] at h
      have hcell : cellAt b.board r c = none := cell_empty_of_valid hiv
      have hpg : pyGet2 b.board r c = some none := by
        have := pyGet2_some_of_valid hiv
        rw [hcell] at this
        exact this
      have hplace : pieceCount (pySet2 b.board r c (some b.current_player))
          = pieceCount b.board + 1 := by
        have := pieceCount_pySet2 (some b.current_player) hpg
        simpa using this
      set b1 : OthelloBoard :=
        { b with board := pySet2 b.board r c (some b.current_player) } with hb1
      have hwf1 : WF b1 := pySet2_shape hwf.1 hwf.2 r c (some b.current_player)
      obtain ⟨hfc, hfp, hfw⟩ := foldl_flip_spec directions b1 r c
      constructor
      · rw [← h]
        show pieceCount
            (List.foldl (fun acc d => _flip_pieces acc r c d.1 d.2) b1 directions).board
          = pieceCount b.board + 1
        rw [hfc]
        exact hplace
      · rw [← h]
        exact hfw hwf1

/-! ## Reachability -/

theorem WF_of_reachable {b : OthelloBoard} (h : Reachable b) : WF b := by
  induction h with
  | init => decide
  | step hb hr hc hmk ih =>
    rename_i b₀ r c v b₁
    cases v with
    | false => rw [make_move_false_eq hmk]; exact ih
    | true => exact (make_move_true_spec ih hmk).2

/-! ## C4: `make_move` never decreases the piece count -/

/-- C4: from any reachable position, an in-range `make_move` either
returns `True` and increases the number of occupied cells by at least
one (the flips only recolor existing pieces), or returns `False` leaving
the state bit-for-bit unchanged. -/
theorem make_move_piece_count (b : OthelloBoard) (hb : Reachable b) (r c : Nat)
    (hr : r < 8) (hc : c < 8) :
    ∃ v b', make_move b (Int.ofNat r) (Int.ofNat c) = some (v, b') ∧
      (v = true → pieceCount b.board + 1 ≤ pieceCount b'.board) ∧
      (v = false → b' = b) := by
  have hwf := WF_of_reachable hb
  have hri1 : (-8 : Int) ≤ Int.ofNat r := by rw [Int.ofNat_eq_natCast]; omega
  have hri2 : Int.ofNat r < 8 := by rw [Int.ofNat_eq_natCast]; omega
  have hci1 : (-8 : Int) ≤ Int.ofNat c := by rw [Int.ofNat_eq_natCast]; omega
  have hci2 : Int.ofNat c < 8 := by rw [Int.ofNat_eq_natCast]; omega
  obtain ⟨⟨v, b'⟩, hmk⟩ :=
    Option.isSome_iff_exists.mp (make_move_isSome hwf hri1 hri2 hci1 hci2)
  refine ⟨v, b', hmk, ?_, ?_⟩
  · rintro rfl
    exact le_of_eq (make_move_true_spec hwf hmk).1.symm
  · rintro rfl
    exact make_move_false_eq hmk

/-- C4 witness: the opening move `(2, 3)` from the (reachable) initial
board. -/
theorem make_move_piece_count_witness :
    (2 < 8 ∧ 3 < 8) ∧
      (∃ v b', make_move initial_board (Int.ofNat 2) (Int.ofNat 3) = some (v, b') ∧
        (v = true → pieceCount initial_board.board + 1 ≤ pieceCount b'.board) ∧
        (v = false → b' = initial_board)) :=
  ⟨by decide, make_move_piece_count initial_board Reachable.init 2 3 (by decide) (by decide)⟩

/-! ## C9: coordinate boundary behaviour -/

theorem is_valid_move_isSome {b : OthelloBoard} (hwf : WF b) {r c : Int}
    (hr1 : -8 ≤ r) (hr2 : r < 8) (hc1 : -8 ≤ c) (hc2 : c < 8) :
    (is_valid_move b r c).isSome := by
  obtain ⟨x, hx⟩ := Option.isSome_iff_exists.mp (pyGet2_isSome hwf hr1 hr2 hc1 hc2)
  unfold is_valid_move
  rw [hx]
  rfl

theorem pyGet2_none_of_big {b : OthelloBoard} (hwf : WF b) {r c : Int}
    (h : 8 ≤ r ∨ (-8 ≤ r ∧ r < 8 ∧ 8 ≤ c)) : pyGet2 b.board r c = none := by
  unfold pyGet2 pyGet
  rcases h with h | ⟨h1, h2, h3⟩
  · rw [hwf.1, pyIdx_none 8 r (Or.inl (by exact_mod_cast h))]
    rfl
  · rw [hwf.1]
    obtain ⟨n, hn⟩ := Option.isSome_iff_exists.mp
      (pyIdx_isSome 8 r (by exact_mod_cast h1) (by exact_mod_cast h2))
    rw [hn]
    simp only [Option.some_bind]
    have hnlt : n < b.board.length := by rw [hwf.1]; exact pyIdx_lt hn
    obtain ⟨row, hrow⟩ := Option.isSome_iff_exists.mp (get?_isSome_of_lt hnlt)
    rw [hrow]
    simp only [Option.some_bind]
    rw [row_length hwf hrow, pyIdx_none 8 c (Or.inl (by exact_mod_cast h3))]
    rfl

theorem is_valid_move_none {b : OthelloBoard} {r c : Int}
    (h : pyGet2 b.board r c = none) : is_valid_move b r c = none := by
  unfold is_valid_move
  rw [h]
  rfl

theorem make_move_none {b : OthelloBoard} {r c : Int}
    (h : pyGet2 b.board r c = none) : make_move b r c = none := by
  unfold make_move
  rw [is_valid_move_none h]
  rfl

theorem reachable_playMoves :
    ∀ (ms : List (Nat × Nat)) (b : OthelloBoard), Reachable b →
      (∀ m ∈ ms, m.1 < 8 ∧ m.2 < 8) → Reachable (playMoves b ms) := by
  intro ms
  induction ms with
  | nil => intro b hb _; exact hb
  | cons m ms ih =>
    intro b hb hmem
    obtain ⟨hm1, hm2⟩ := hmem m (List.mem_cons_self m ms)
    have hwf := WF_of_reachable hb
    have hri1 : (-8 : Int) ≤ Int.ofNat m.1 := by rw [Int.ofNat_eq_natCast]; omega
    have hri2 : Int.ofNat m.1 < 8 := by rw [Int.ofNat_eq_natCast]; omega
    have hci1 : (-8 : Int) ≤ Int.ofNat m.2 := by rw [Int.ofNat_eq_natCast]; omega
    have hci2 : Int.ofNat m.2 < 8 := by rw [Int.ofNat_eq_natCast]; omega
    obtain ⟨⟨v, b'⟩, hmk⟩ :=
      Option.isSome_iff_exists.mp (make_move_isSome hwf hri1 hri2 hci1 hci2)
    have hb' : Reachable b' := Reachable.step hb hm1 hm2 hmk
    have hstep : playMoves b (m :: ms) = playMoves b' ms := by
      unfold playMoves
      rw [List.foldl_cons]
      simp only [hmk, Option.getD_some]
    rw [hstep]
    exact ih b' hb' fun x hx => hmem x (List.mem_cons_of_mem m hx)

theorem negBoard_reachable : Reachable negBoard :=
  reachable_playMoves negHistory initial_board Reachable.init (by decide)

set_option maxRecDepth 4000000 in
/-- C9: negative coordinates in `[-8, -1]` are silently accepted through
Python index aliasing — `is_valid_move` and `make_move` return normally,
and from a reachable position the aliased move `(4, -1)` is accepted and
mutates the board — while a coordinate `≥ 8` raises `IndexError`
(modelled as `none`) instead of returning `False`. -/
theorem coordinate_boundary (b : OthelloBoard) (hwf : WF b) (r c : Int) :
    (((-8 ≤ r ∧ r ≤ -1 ∧ -8 ≤ c ∧ c < 8) ∨ (-8 ≤ r ∧ r < 8 ∧ -8 ≤ c ∧ c ≤ -1)) →
      (is_valid_move b r c).isSome ∧ (make_move b r c).isSome) ∧
    ((8 ≤ r ∨ (-8 ≤ r ∧ r < 8 ∧ 8 ≤ c)) →
      is_valid_move b r c = none ∧ make_move b r c = none) ∧
    (∃ b₀, Reachable b₀ ∧ ∃ (r₀ c₀ : Int) (b₁ : OthelloBoard),
      (r₀ < 0 ∨ c₀ < 0) ∧ make_move b₀ r₀ c₀ = some (true, b₁) ∧ b₁ ≠ b₀) := by
  refine ⟨?_, ?_, ?_⟩
  · intro h
    have hr1 : -8 ≤ r := by rcases h with ⟨h1, -, -, -⟩ | ⟨h1, -, -, -⟩ <;> exact h1
    have hr2 : r < 8 := by rcases h with ⟨-, h2, -, -⟩ | ⟨-, h2, -, -⟩ <;> omega
    have hc1 : -8 ≤ c := by rcases h with ⟨-, -, h3, -⟩ | ⟨-, -, h3, -⟩ <;> exact h3
    have hc2 : c < 8 := by rcases h with ⟨-, -, -, h4⟩ | ⟨-, -, -, h4⟩ <;> omega
    exact ⟨is_valid_move_isSome hwf hr1 hr2 hc1 hc2,
      make_move_isSome hwf hr1 hr2 hc1 hc2⟩
  · intro h
    have hpg := pyGet2_none_of_big hwf h
    exact ⟨is_valid_move_none hpg, make_move_none hpg⟩
  · refine ⟨negBoard, negBoard_reachable, 4, -1, negBoardAfter, Or.inr (by norm_num),
      ?_, ?_⟩
    · decide
    · decide

/-- C9 witness: coordinates `(-1, -1)` on the initial board. -/
theorem coordinate_boundary_witness :
    WF initial_board ∧
      ((((-8 : Int) ≤ -1 ∧ (-1 : Int) ≤ -1 ∧ (-8 : Int) ≤ -1 ∧ (-1 : Int) < 8) ∨
          ((-8 : Int) ≤ -1 ∧ (-1 : Int) < 8 ∧ (-8 : Int) ≤ -1 ∧ (-1 : Int) ≤ -1)) →
        (is_valid_move initial_board (-1) (-1)).isSome ∧
          (make_move initial_board (-1) (-1)).isSome) ∧
      (((8 : Int) ≤ -1 ∨ ((-8 : Int) ≤ -1 ∧ (-1 : Int) < 8 ∧ (8 : Int) ≤ -1)) →
        is_valid_move initial_board (-1) (-1) = none ∧
          make_move initial_board (-1) (-1) = none) ∧
      (∃ b₀, Reachable b₀ ∧ ∃ (r₀ c₀ : Int) (b₁ : OthelloBoard),
        (r₀ < 0 ∨ c₀ < 0) ∧ make_move b₀ r₀ c₀ = some (true, b₁) ∧ b₁ ≠ b₀) :=
  ⟨by decide, coordinate_boundary initial_board (by decide) (-1) (-1)⟩

/-! ## C6: alpha-beta pruning computes the plain minimax value -/

theorem _minimax_succ (ai : Player) (d : Nat) (b : OthelloBoard) (α β : EV) (m : Bool) :
    _minimax ai (d + 1) b α β m =
      if get_valid_moves b = [] then
        if get_valid_moves
            { b with current_player := _opposite_color b.current_player } = [] then
          qv (_evaluate_board ai
            { b with current_player := _opposite_color b.current_player }).1
        else _minimax ai d
          { b with current_player := _opposite_color b.current_player } α β (!m)
      else if m then
        abMaxLoop (fun nb a bt => _minimax ai d nb a bt false) b
          (get_valid_moves b) ⊥ α β
      else
        abMinLoop (fun nb a bt => _minimax ai d nb a bt true) b
          (get_valid_moves b) posInf α β := by
  rw [_minimax]

theorem _minimax_noprune_succ (ai : Player) (d : Nat) (b : OthelloBoard) (α β : EV)
    (m : Bool) :
    _minimax_noprune ai (d + 1) b α β m =
      if get_valid_moves b = [] then
        if get_valid_moves
            { b with current_player := _opposite_color b.current_player } = [] then
          qv (_evaluate_board ai
            { b with current_player := _opposite_color b.current_player }).1
        else _minimax_noprune ai d
          { b with current_player := _opposite_color b.current_player } α β (!m)
      else if m then
        nopMaxLoop (fun nb a bt => _minimax_noprune ai d nb a bt false) b
          (get_valid_moves b) ⊥ α β
      else
        nopMinLoop (fun nb a bt => _minimax_noprune ai d nb a bt true) b
          (get_valid_moves b) posInf α β := by
  rw [_minimax_noprune]

theorem minimaxValue_succ (ai : Player) (d : Nat) (b : OthelloBoard) (m : Bool) :
    minimaxValue ai (d + 1) b m =
      if get_valid_moves b = [] then
        if get_valid_moves
            { b with current_player := _opposite_color b.current_player } = [] then
          qv (_evaluate_board ai
            { b with current_player := _opposite_color b.current_player }).1
        else minimaxValue ai d
          { b with current_player := _opposite_color b.current_player } (!m)
      else if m then
        (get_valid_moves b).foldl
          (fun acc mv => max acc (minimaxValue ai d (applyM (clone b) mv) false)) ⊥
      else
        (get_valid_moves b).foldl
          (fun acc mv => min acc (minimaxValue ai d (applyM (clone b) mv) true)) posInf := by
  rw [minimaxValue]

theorem nopMaxLoop_eq_foldl (f : OthelloBoard → EV → EV → EV) (vf : OthelloBoard → EV)
    (hf : ∀ nb a bt, f nb a bt = vf nb) (b : OthelloBoard) :
    ∀ (ms : List (Nat × Nat)) (mx α β : EV),
      nopMaxLoop f b ms mx α β =
        ms.foldl (fun acc mv => max acc (vf (applyM (clone b) mv))) mx := by
  intro ms
  induction ms with
  | nil => intro mx α β; rfl
  | cons mv ms ih =>
    intro mx α β
    rw [nopMaxLoop, List.foldl_cons, hf, ih]

theorem nopMinLoop_eq_foldl (f : OthelloBoard → EV → EV → EV) (vf : OthelloBoard → EV)
    (hf : ∀ nb a bt, f nb a bt = vf nb) (b : OthelloBoard) :
    ∀ (ms : List (Nat × Nat)) (mn α β : EV),
      nopMinLoop f b ms mn α β =
        ms.foldl (fun acc mv => min acc (vf (applyM (clone b) mv))) mn := by
  intro ms
  induction ms with
  | nil => intro mn α β; rfl
  | cons mv ms ih =>
    intro mn α β
    rw [nopMinLoop, List.foldl_cons, hf, ih]

/-- With the cutoffs gone, the window arguments are dead: the unpruned
search computes the plain minimax value. -/
theorem _minimax_noprune_eq (ai : Player) :
    ∀ (d : Nat) (b : OthelloBoard) (α β : EV) (m : Bool),
      _minimax_noprune ai d b α β m = minimaxValue ai d b m := by
  intro d
  induction d with
  | zero => intro b α β m; rfl
  | succ d ih =>
    intro b α β m
    rw [_minimax_noprune_succ, minimaxValue_succ]
    by_cases h1 : get_valid_moves b = []
    · rw [if_pos h1, if_pos h1]
      by_cases h2 : get_valid_moves
          { b with current_player := _opposite_color b.current_player } = []
      · rw [if_pos h2, if_pos h2]
      · rw [if_neg h2, if_neg h2, ih]
    · rw [if_neg h1, if_neg h1]
      cases m with
      | true =>
        rw [if_pos rfl, if_pos rfl]
        exact nopMaxLoop_eq_foldl _ _ (fun nb a bt => ih nb a bt false) b _ _ _ _
      | false =>
        rw [if_neg (by simp), if_neg (by simp)]
        exact nopMinLoop_eq_foldl _ _ (fun nb a bt => ih nb a bt true) b _ _ _ _

theorem posInf_eq_top : posInf = (⊤ : EV) := rfl

theorem le_posInf (v : EV) : v ≤ posInf := posInf_eq_top ▸ le_top

theorem bot_lt_posInf : (⊥ : EV) < posInf := by decide

theorem foldl_max_init (vf : (Nat × Nat) → EV) :
    ∀ (ms : List (Nat × Nat)) (mx : EV),
      ms.foldl (fun acc m => max acc (vf m)) mx
        = max mx (ms.foldl (fun acc m => max acc (vf m)) ⊥) := by
  intro ms
  induction ms with
  | nil =>
    intro mx
    exact (max_eq_left bot_le).symm
  | cons m ms ih =>
    intro mx
    rw [List.foldl_cons, List.foldl_cons, ih (max mx (vf m)), ih (max ⊥ (vf m)),
      max_eq_right (bot_le : (⊥ : EV) ≤ vf m), max_assoc]

theorem foldl_min_init (vf : (Nat × Nat) → EV) :
    ∀ (ms : List (Nat × Nat)) (mn : EV),
      ms.foldl (fun acc m => min acc (vf m)) mn
        = min mn (ms.foldl (fun acc m => min acc (vf m)) posInf) := by
  intro ms
  induction ms with
  | nil =>
    intro mn
    exact (min_eq_left (le_posInf mn)).symm
  | cons m ms ih =>
    intro mn
    rw [List.foldl_cons, List.foldl_cons, ih (min mn (vf m)), ih (min posInf (vf m)),
      min_eq_right (le_posInf (vf m)), min_assoc]

theorem foldl_max_ge_init (vf : (Nat × Nat) → EV) :
    ∀ (ms : List (Nat × Nat)) (mx : EV),
      mx ≤ ms.foldl (fun acc m => max acc (vf m)) mx := by
  intro ms
  induction ms with
  | nil => intro mx; exact le_rfl
  | cons m ms ih =>
    intro mx
    rw [List.foldl_cons]
    exact (le_max_left mx (vf m)).trans (ih (max mx (vf m)))

theorem foldl_min_le_init (vf : (Nat × Nat) → EV) :
    ∀ (ms : List (Nat × Nat)) (mn : EV),
      ms.foldl (fun acc m => min acc (vf m)) mn ≤ mn := by
  intro ms
  induction ms with
  | nil => intro mn; exact le_rfl
  | cons m ms ih =>
    intro mn
    rw [List.foldl_cons]
    exact (ih (min mn (vf m))).trans (min_le_left mn (vf m))

theorem abMaxLoop_failSoft
    (f : OthelloBoard → EV → EV → EV) (vf : OthelloBoard → EV)
    (hf : ∀ nb a bt, a < bt → failSoft (f nb a bt) (vf nb) a bt)
    (b : OthelloBoard) (α₀ β : EV) :
    ∀ (ms : List (Nat × Nat)) (mx : EV), max α₀ mx < β →
      failSoft (abMaxLoop f b ms mx (max α₀ mx) β)
        (ms.foldl (fun acc mv => max acc (vf (applyM (clone b) mv))) mx) α₀ β := by
  intro ms
  induction ms with
  | nil =>
    intro mx _
    exact ⟨fun _ => le_rfl, fun _ => le_rfl, fun _ _ => rfl⟩
  | cons mv ms ih =>
    intro mx hlt
    have hα₀β : α₀ < β := lt_of_le_of_lt (le_max_left _ _) hlt
    have hmxβ : mx < β := lt_of_le_of_lt (le_max_right _ _) hlt
    have hstep : abMaxLoop f b (mv :: ms) mx (max α₀ mx) β =
        if β ≤ max (max α₀ mx) (f (applyM (clone b) mv) (max α₀ mx) β) then
          max mx (f (applyM (clone b) mv) (max α₀ mx) β)
        else
          abMaxLoop f b ms (max mx (f (applyM (clone b) mv) (max α₀ mx) β))
            (max (max α₀ mx) (f (applyM (clone b) mv) (max α₀ mx) β)) β := rfl
    rw [hstep, List.foldl_cons]
    set nb := applyM (clone b) mv with hnb
    set ev := f nb (max α₀ mx) β with hevdef
    set w := vf nb with hwdef
    have hfs := hf nb (max α₀ mx) β hlt
    by_cases hbr : β ≤ max (max α₀ mx) ev
    · rw [if_pos hbr]
      have hβev : β ≤ ev := by
        rcases le_max_iff.mp hbr with h | h
        · exact absurd h (not_le_of_lt hlt)
        · exact h
      have hevw : ev ≤ w := hfs.2.1 hβev
      have hr : max mx ev = ev := max_eq_right (le_of_lt (lt_of_lt_of_le hmxβ hβev))
      refine ⟨?_, ?_, ?_⟩
      · intro hle
        rw [hr] at hle
        exact absurd (hβev.trans hle) (not_le_of_lt hα₀β)
      · intro _
        calc max mx ev = ev := hr
          _ ≤ w := hevw
          _ ≤ max mx w := le_max_right _ _
          _ ≤ _ := foldl_max_ge_init _ ms (max mx w)
      · intro _ hrβ
        rw [hr] at hrβ
        exact absurd (lt_of_le_of_lt hβev hrβ) (lt_irrefl β)
    · rw [if_neg hbr]
      have hlt' : max α₀ (max mx ev) < β := by
        rw [← max_assoc]
        exact not_le.mp hbr
      have hIH := ih (max mx ev) hlt'
      rw [max_assoc]
      by_cases hcase : max α₀ mx < ev
      · have hevβ : ev < β := lt_of_le_of_lt (le_max_right (max α₀ mx) ev) (not_le.mp hbr)
        have hEW : ev = w := hfs.2.2 hcase hevβ
        rw [← hEW]
        exact hIH
      · have hevle : ev ≤ max α₀ mx := not_lt.mp hcase
        have hwev : w ≤ ev := hfs.1 hevle
        have hv : ms.foldl (fun acc mv => max acc (vf (applyM (clone b) mv))) (max mx w)
            = max (max mx w)
              (ms.foldl (fun acc mv => max acc (vf (applyM (clone b) mv))) ⊥) :=
          foldl_max_init _ ms (max mx w)
        have hv' : ms.foldl (fun acc mv => max acc (vf (applyM (clone b) mv))) (max mx ev)
            = max (max mx ev)
              (ms.foldl (fun acc mv => max acc (vf (applyM (clone b) mv))) ⊥) :=
          foldl_max_init _ ms (max mx ev)
        set M := ms.foldl (fun acc mv => max acc (vf (applyM (clone b) mv))) (⊥ : EV)
          with hM
        obtain ⟨i1, i2, i3⟩ := hIH
        rw [hv'] at i1 i2 i3
        rw [hv]
        have hle1 : max (max mx w) M ≤ max (max mx ev) M :=
          max_le_max (max_le_max le_rfl hwev) le_rfl
        have hle2 : max (max mx ev) M ≤ max α₀ (max (max mx w) M) := by
          apply max_le
          · calc max mx ev ≤ max α₀ mx :=
                  max_le (le_max_right α₀ mx) hevle
              _ ≤ max α₀ (max mx w) := max_le_max le_rfl (le_max_left mx w)
              _ ≤ max α₀ (max (max mx w) M) :=
                  max_le_max le_rfl (le_max_left _ M)
          · exact (le_max_right (max mx w) M).trans (le_max_right α₀ _)
        refine ⟨?_, ?_, ?_⟩
        · intro h
          exact hle1.trans (i1 h)
        · intro h
          have hrv' := i2 h
          rcases le_total (max (max mx w) M) α₀ with hva | hva
          · have hra : abMaxLoop f b ms (max mx ev) (max α₀ (max mx ev)) β ≤ α₀ :=
              hrv'.trans (hle2.trans (max_eq_left hva).le)
            exact absurd (h.trans hra) (not_le_of_lt hα₀β)
          · exact hrv'.trans (hle2.trans (max_eq_right hva).le)
        · intro hαr hrβ
          have hrv' := i3 hαr hrβ
          refine le_antisymm ?_ ?_
          · rcases le_total (max (max mx w) M) α₀ with hva | hva
            · exact absurd (hrv'.le.trans (hle2.trans (max_eq_left hva).le))
                (not_le_of_lt hαr)
            · exact hrv'.le.trans (hle2.trans (max_eq_right hva).le)
          · exact hle1.trans hrv'.ge

theorem abMinLoop_failSoft
    (f : OthelloBoard → EV → EV → EV) (vf : OthelloBoard → EV)
    (hf : ∀ nb a bt, a < bt → failSoft (f nb a bt) (vf nb) a bt)
    (b : OthelloBoard) (α β₀ : EV) :
    ∀ (ms : List (Nat × Nat)) (mn : EV), α < min β₀ mn →
      failSoft (abMinLoop f b ms mn α (min β₀ mn))
        (ms.foldl (fun acc mv => min acc (vf (applyM (clone b) mv))) mn) α β₀ := by
  intro ms
  induction ms with
  | nil =>
    intro mn _
    exact ⟨fun _ => le_rfl, fun _ => le_rfl, fun _ _ => rfl⟩
  | cons mv ms ih =>
    intro mn hlt
    have hαβ₀ : α < β₀ := lt_of_lt_of_le hlt (min_le_left _ _)
    have hαmn : α < mn := lt_of_lt_of_le hlt (min_le_right _ _)
    have hstep : abMinLoop f b (mv :: ms) mn α (min β₀ mn) =
        if min (min β₀ mn) (f (applyM (clone b) mv) α (min β₀ mn)) ≤ α then
          min mn (f (applyM (clone b) mv) α (min β₀ mn))
        else
          abMinLoop f b ms (min mn (f (applyM (clone b) mv) α (min β₀ mn))) α
            (min (min β₀ mn) (f (applyM (clone b) mv) α (min β₀ mn))) := rfl
    rw [hstep, List.foldl_cons]
    set nb := applyM (clone b) mv with hnb
    set ev := f nb α (min β₀ mn) with hevdef
    set w := vf nb with hwdef
    have hfs : failSoft ev w α (min β₀ mn) := hf nb α (min β₀ mn) hlt
    by_cases hbr : min (min β₀ mn) ev ≤ α
    · rw [if_pos hbr]
      have hevα : ev ≤ α := by
        rcases min_le_iff.mp hbr with h | h
        · exact absurd h (not_le_of_lt hlt)
        · exact h
      have hwev : w ≤ ev := hfs.1 hevα
      have hr : min mn ev = ev := min_eq_right (le_of_lt (lt_of_le_of_lt hevα hαmn))
      refine ⟨?_, ?_, ?_⟩
      · intro _
        calc ms.foldl (fun acc mv => min acc (vf (applyM (clone b) mv))) (min mn w)
              ≤ min mn w := foldl_min_le_init _ ms (min mn w)
          _ ≤ w := min_le_right _ _
          _ ≤ ev := hwev
          _ = min mn ev := hr.symm
      · intro h
        rw [hr] at h
        exact absurd (h.trans hevα) (not_le_of_lt hαβ₀)
      · intro hαr _
        rw [hr] at hαr
        exact absurd (lt_of_lt_of_le hαr hevα) (lt_irrefl α)
    · rw [if_neg hbr]
      have hlt' : α < min β₀ (min mn ev) := by
        rw [← min_assoc]
        exact not_le.mp hbr
      have hIH := ih (min mn ev) hlt'
      rw [min_assoc]
      by_cases hcase : ev < min β₀ mn
      · have hαev : α < ev := lt_of_lt_of_le (not_le.mp hbr) (min_le_right (min β₀ mn) ev)
        have hEW : ev = w := hfs.2.2 hαev hcase
        rw [← hEW]
        exact hIH
      · have hevge : min β₀ mn ≤ ev := not_lt.mp hcase
        have hwev : ev ≤ w := hfs.2.1 hevge
        have hv : ms.foldl (fun acc mv => min acc (vf (applyM (clone b) mv))) (min mn w)
            = min (min mn w)
              (ms.foldl (fun acc mv => min acc (vf (applyM (clone b) mv))) posInf) :=
          foldl_min_init _ ms (min mn w)
        have hv' : ms.foldl (fun acc mv => min acc (vf (applyM (clone b) mv))) (min mn ev)
            = min (min mn ev)
              (ms.foldl (fun acc mv => min acc (vf (applyM (clone b) mv))) posInf) :=
          foldl_min_init _ ms (min mn ev)
        set M := ms.foldl (fun acc mv => min acc (vf (applyM (clone b) mv))) posInf
          with hM
        obtain ⟨i1, i2, i3⟩ := hIH
        rw [hv'] at i1 i2 i3
        rw [hv]
        have hle1 : min (min mn ev) M ≤ min (min mn w) M :=
          min_le_min (min_le_min le_rfl hwev) le_rfl
        have hle2 : min β₀ (min (min mn w) M) ≤ min (min mn ev) M := by
          apply le_min
          · calc min β₀ (min (min mn w) M)
                  ≤ min β₀ (min mn w) := min_le_min le_rfl (min_le_left _ M)
              _ ≤ min β₀ mn := min_le_min le_rfl (min_le_left mn w)
              _ ≤ min mn ev := le_min (min_le_right β₀ mn) hevge
          · exact (min_le_right β₀ _).trans (min_le_right (min mn w) M)
        refine ⟨?_, ?_, ?_⟩
        · intro h
          have hrv' := i1 h
          rcases le_total β₀ (min (min mn w) M) with hvb | hvb
          · have : β₀ ≤ α :=
              ((min_eq_left hvb).symm.le.trans hle2).trans (hrv'.trans h)
            exact absurd this (not_le_of_lt hαβ₀)
          · exact ((min_eq_right hvb).symm.le.trans hle2).trans hrv'
        · intro h
          exact (i2 h).trans hle1
        · intro hαr hrβ
          have hrv' := i3 hαr hrβ
          refine le_antisymm ?_ ?_
          · exact hrv'.le.trans hle1
          · rcases le_total β₀ (min (min mn w) M) with hvb | hvb
            · exact absurd ((min_eq_left hvb).symm.le.trans (hle2.trans hrv'.ge))
                (not_le_of_lt hrβ)
            · exact (min_eq_right hvb).symm.le.trans (hle2.trans hrv'.ge)

theorem _minimax_failSoft (ai : Player) :
    ∀ (d : Nat) (b : OthelloBoard) (α β : EV) (m : Bool), α < β →
      failSoft (_minimax ai d b α β m) (minimaxValue ai d b m) α β := by
  intro d
  induction d with
  | zero =>
    intro b α β m _
    exact ⟨fun _ => le_rfl, fun _ => le_rfl, fun _ _ => rfl⟩
  | succ d ih =>
    intro b α β m hαβ
    rw [_minimax_succ, minimaxValue_succ]
    by_cases h1 : get_valid_moves b = []
    · rw [if_pos h1, if_pos h1]
      by_cases h2 : get_valid_moves
          { b with current_player := _opposite_color b.current_player } = []
      · rw [if_pos h2, if_pos h2]
        exact ⟨fun _ => le_rfl, fun _ => le_rfl, fun _ _ => rfl⟩
      · rw [if_neg h2, if_neg h2]
        exact ih _ α β (!m) hαβ
    · rw [if_neg h1, if_neg h1]
      cases m with
      | true =>
        rw [if_pos rfl, if_pos rfl]
        have h := abMaxLoop_failSoft (fun nb a bt => _minimax ai d nb a bt false)
          (fun nb => minimaxValue ai d nb false)
          (fun nb a bt hab => ih nb a bt false hab) b α β (get_valid_moves b) ⊥
          (by rw [max_eq_left bot_le]; exact hαβ)
        rw [max_eq_left bot_le] at h
        exact h
      | false =>
        rw [if_neg (by simp), if_neg (by simp)]
        have h := abMinLoop_failSoft (fun nb a bt => _minimax ai d nb a bt true)
          (fun nb => minimaxValue ai d nb true)
          (fun nb a bt hab => ih nb a bt true hab) b α β (get_valid_moves b) posInf
          (by rw [min_eq_left (le_posInf β)]; exact hαβ)
        rw [min_eq_left (le_posInf β)] at h
        exact h

/-- C6: with the full window `(-inf, +inf)`, `_minimax` with its
alpha-beta cutoffs returns exactly the value of the same recursion with
the `beta <= alpha` breaks removed, for every position, depth and
maximizing flag: pruning never changes the computed value. -/
theorem alphabeta_pruning_equiv (ai : Player) (d : Nat) (b : OthelloBoard) (m : Bool) :
    _minimax ai d b ⊥ posInf m = _minimax_noprune ai d b ⊥ posInf m := by
  rw [_minimax_noprune_eq]
  have hfs := _minimax_failSoft ai d b ⊥ posInf m bot_lt_posInf
  rcases le_or_lt (_minimax ai d b ⊥ posInf m) ⊥ with h1 | h1
  · have hv := hfs.1 h1
    rw [le_bot_iff.mp h1, le_bot_iff.mp (hv.trans h1)]
  · rcases le_or_lt posInf (_minimax ai d b ⊥ posInf m) with h2 | h2
    · exact le_antisymm (hfs.2.1 h2) ((le_posInf _).trans h2)
    · exact hfs.2.2 h1 h2

/-! ## C5: what `MinimaxAI.get_move` actually returns -/

theorem bot_lt_qv (q : ℤ) : (⊥ : EV) < qv q := WithBot.bot_lt_coe _

theorem qv_lt_posInf (q : ℤ) : qv q < posInf :=
  WithBot.coe_lt_coe.mpr (WithTop.coe_lt_top q)

theorem foldl_max_lt_posInf (vf : (Nat × Nat) → EV) (hvf : ∀ m, vf m < posInf) :
    ∀ (ms : List (Nat × Nat)) (mx : EV), mx < posInf →
      ms.foldl (fun acc m => max acc (vf m)) mx < posInf := by
  intro ms
  induction ms with
  | nil => intro mx h; exact h
  | cons m ms ih =>
    intro mx h
    rw [List.foldl_cons]
    exact ih _ (max_lt h (hvf m))

theorem bot_lt_foldl_min (vf : (Nat × Nat) → EV) (hvf : ∀ m, ⊥ < vf m) :
    ∀ (ms : List (Nat × Nat)) (mn : EV), ⊥ < mn →
      ⊥ < ms.foldl (fun acc m => min acc (vf m)) mn := by
  intro ms
  induction ms with
  | nil => intro mn h; exact h
  | cons m ms ih =>
    intro mn h
    rw [List.foldl_cons]
    exact ih _ (lt_min h (hvf m))

theorem bot_lt_foldl_max (vf : (Nat × Nat) → EV) (hvf : ∀ m, ⊥ < vf m) :
    ∀ (ms : List (Nat × Nat)), ms ≠ [] →
      ⊥ < ms.foldl (fun acc m => max acc (vf m)) ⊥ := by
  intro ms
  cases ms with
  | nil => intro h; exact absurd rfl h
  | cons m ms =>
    intro _
    rw [List.foldl_cons]
    calc (⊥ : EV) < vf m := hvf m
      _ = max ⊥ (vf m) := (max_eq_right bot_le).symm
      _ ≤ _ := foldl_max_ge_init _ ms _

theorem foldl_min_lt_posInf (vf : (Nat × Nat) → EV) (hvf : ∀ m, vf m < posInf) :
    ∀ (ms : List (Nat × Nat)), ms ≠ [] →
      ms.foldl (fun acc m => min acc (vf m)) posInf < posInf := by
  intro ms
  cases ms with
  | nil => intro h; exact absurd rfl h
  | cons m ms =>
    intro _
    rw [List.foldl_cons]
    calc ms.foldl (fun acc m => min acc (vf m)) (min posInf (vf m))
        ≤ min posInf (vf m) := foldl_min_le_init _ ms _
      _ ≤ vf m := min_le_right _ _
      _ < posInf := hvf m

/-- Plain minimax values are always finite: the evaluation at every leaf
is a rational (here: scaled-integer) number. -/
theorem minimaxValue_finite (ai : Player) :
    ∀ (d : Nat) (b : OthelloBoard) (m : Bool),
      ⊥ < minimaxValue ai d b m ∧ minimaxValue ai d b m < posInf := by
  intro d
  induction d with
  | zero =>
    intro b m
    exact ⟨bot_lt_qv _, qv_lt_posInf _⟩
  | succ d ih =>
    intro b m
    rw [minimaxValue_succ]
    by_cases h1 : get_valid_moves b = []
    · rw [if_pos h1]
      by_cases h2 : get_valid_moves
          { b with current_player := _opposite_color b.current_player } = []
      · rw [if_pos h2]
        exact ⟨bot_lt_qv _, qv_lt_posInf _⟩
      · rw [if_neg h2]
        exact ih _ (!m)
    · rw [if_neg h1]
      cases m with
      | true =>
        rw [if_pos rfl]
        refine ⟨?_, ?_⟩
        · exact bot_lt_foldl_max _ (fun mv => (ih (applyM (clone b) mv) false).1) _ h1
        · exact foldl_max_lt_posInf _ (fun mv => (ih (applyM (clone b) mv) false).2) _ ⊥
            bot_lt_posInf
      | false =>
        rw [if_neg (by simp)]
        refine ⟨?_, ?_⟩
        · exact bot_lt_foldl_min _ (fun mv => (ih (applyM (clone b) mv) true).1) _ posInf
            bot_lt_posInf
        · exact foldl_min_lt_posInf _ (fun mv => (ih (applyM (clone b) mv) true).2) _ h1

theorem selectBest_result (vf : Nat × Nat → EV) :
    ∀ (ms : List (Nat × Nat)) (bs : EV) (bm : Option (Nat × Nat)),
      selectBest vf ms bs bm = bm ∨ ∃ m ∈ ms, selectBest vf ms bs bm = some m := by
  intro ms
  induction ms with
  | nil => intro bs bm; exact Or.inl rfl
  | cons m ms ih =>
    intro bs bm
    rw [selectBest]
    split
    · rcases ih (vf m) (some m) with h | ⟨m', hm', h⟩
      · exact Or.inr ⟨m, List.mem_cons_self m ms, h⟩
      · exact Or.inr ⟨m', List.mem_cons_of_mem m hm', h⟩
    · rcases ih bs bm with h | ⟨m', hm', h⟩
      · exact Or.inl h
      · exact Or.inr ⟨m', List.mem_cons_of_mem m hm', h⟩

theorem selectBest_mem_of (vf : Nat × Nat → EV) (ms : List (Nat × Nat)) (hms : ms ≠ [])
    (hvf : ∀ mv ∈ ms, ⊥ < vf mv) :
    ∃ m ∈ ms, selectBest vf ms ⊥ none = some m := by
  cases ms with
  | nil => exact absurd rfl hms
  | cons m ms =>
    rw [selectBest, if_pos (hvf m (List.mem_cons_self m ms))]
    rcases selectBest_result vf ms (vf m) (some m) with h | ⟨m', hm', h⟩
    · exact ⟨m, List.mem_cons_self m ms, h⟩
    · exact ⟨m', List.mem_cons_of_mem m hm', h⟩

theorem prioritized_subset {b : OthelloBoard} {mv : Nat × Nat}
    (h : mv ∈ prioritized b) : mv ∈ get_valid_moves b := by
  simp only [prioritized] at h
  split at h
  · exact List.mem_of_mem_filter h
  · split at h
    · exact List.mem_of_mem_filter h
    · exact h

theorem prioritized_ne_nil {b : OthelloBoard} (h : get_valid_moves b ≠ []) :
    prioritized b ≠ [] := by
  simp only [prioritized]
  split
  · assumption
  · split
    · assumption
    · exact h

theorem topLoop_eq_selectBest (ai : Player) (b : OthelloBoard) :
    ∀ (ms : List (Nat × Nat)) (bs : EV) (bm : Option (Nat × Nat)), bs < posInf →
      topLoop ai b ms bs bm bs posInf =
        selectBest
          (fun mv => minimaxValue ai (MAX_DEPTH - 1) (applyM (clone b) mv) false)
          ms bs bm := by
  intro ms
  induction ms with
  | nil => intro bs bm _; rfl
  | cons mv ms ih =>
    intro bs bm hbs
    have hstep : topLoop ai b (mv :: ms) bs bm bs posInf =
        if posInf ≤ max bs
            (if bs < _minimax ai (MAX_DEPTH - 1) (applyM (clone b) mv) bs posInf false
              then _minimax ai (MAX_DEPTH - 1) (applyM (clone b) mv) bs posInf false
              else bs) then
          (if bs < _minimax ai (MAX_DEPTH - 1) (applyM (clone b) mv) bs posInf false
            then some mv else bm)
        else
          topLoop ai b ms
            (if bs < _minimax ai (MAX_DEPTH - 1) (applyM (clone b) mv) bs posInf false
              then _minimax ai (MAX_DEPTH - 1) (applyM (clone b) mv) bs posInf false
              else bs)
            (if bs < _minimax ai (MAX_DEPTH - 1) (applyM (clone b) mv) bs posInf false
              then some mv else bm)
            (max bs
              (if bs < _minimax ai (MAX_DEPTH - 1) (applyM (clone b) mv) bs posInf false
                then _minimax ai (MAX_DEPTH - 1) (applyM (clone b) mv) bs posInf false
                else bs))
            posInf := rfl
    rw [hstep, selectBest]
    set nb := applyM (clone b) mv with hnb
    set score := _minimax ai (MAX_DEPTH - 1) nb bs posInf false with hscore
    set v := minimaxValue ai (MAX_DEPTH - 1) nb false with hv
    have hfs : failSoft score v bs posInf :=
      _minimax_failSoft ai (MAX_DEPTH - 1) nb bs posInf false hbs
    have hvfin := minimaxValue_finite ai (MAX_DEPTH - 1) nb false
    rcases lt_or_le bs score with hcmp | hcmp
    · have hsfin : score < posInf := by
        rcases lt_or_le score posInf with h | h
        · exact h
        · exact absurd (lt_of_lt_of_le hvfin.2 (h.trans (hfs.2.1 h))) (lt_irrefl _)
      have hsv : score = v := hfs.2.2 hcmp hsfin
      have hL1 : (if bs < score then score else bs) = score := if_pos hcmp
      have hL2 : (if bs < score then some mv else bm) = some mv := if_pos hcmp
      rw [hL1, hL2, max_eq_right (le_of_lt hcmp), if_neg (not_le_of_lt hsfin),
        ih score (some mv) hsfin, if_pos (show bs < v from hsv ▸ hcmp), hsv]
    · have hvbs : ¬ bs < v := not_lt_of_le ((hfs.1 hcmp).trans hcmp)
      have hL1 : (if bs < score then score else bs) = bs := if_neg (not_lt_of_le hcmp)
      have hL2 : (if bs < score then some mv else bm) = bm := if_neg (not_lt_of_le hcmp)
      rw [hL1, hL2, max_self, if_neg (not_le_of_lt hbs), ih bs bm hbs, if_neg hvbs]

/-- C5 (amended): `get_move` returns `None` exactly on positions with no
legal move; otherwise it returns the first move of the *prioritized
candidate list* — corner moves if any exist, else edge moves if any
exist, else all legal moves — whose plain minimax value at depth
`MAX_DEPTH - 1` is strictly greatest (first-seen wins ties), and that
move is always one of the position's legal moves.  The corner/edge
preference *restricts* the candidate set rather than merely reordering
it. -/
theorem get_move_spec (ai : Player) (b : OthelloBoard) :
    (get_valid_moves b = [] → get_move ai b = none) ∧
    (get_valid_moves b ≠ [] →
      get_move ai b =
        selectBest
          (fun mv => minimaxValue ai (MAX_DEPTH - 1) (applyM (clone b) mv) false)
          (prioritized b) ⊥ none ∧
      ∃ m, get_move ai b = some m ∧ m ∈ get_valid_moves b) := by
  constructor
  · intro h
    rw [get_move, if_pos h]
  · intro h
    have heq : get_move ai b =
        selectBest
          (fun mv => minimaxValue ai (MAX_DEPTH - 1) (applyM (clone b) mv) false)
          (prioritized b) ⊥ none := by
      rw [get_move, if_neg h]
      exact topLoop_eq_selectBest ai b (prioritized b) ⊥ none bot_lt_posInf
    refine ⟨heq, ?_⟩
    obtain ⟨m, hm, hsel⟩ := selectBest_mem_of
      (fun mv => minimaxValue ai (MAX_DEPTH - 1) (applyM (clone b) mv) false)
      (prioritized b) (prioritized_ne_nil h)
      (fun mv _ => (minimaxValue_finite ai (MAX_DEPTH - 1) (applyM (clone b) mv) false).1)
    exact ⟨m, heq.trans hsel, prioritized_subset hm⟩

/-- C5 witness: the initial board has legal moves, so `get_move` returns
the first-seen argmax of the prioritized candidates, a legal move. -/
theorem get_move_spec_witness :
    get_valid_moves initial_board ≠ [] ∧
      (get_move Player.black initial_board =
        selectBest
          (fun mv =>
            minimaxValue Player.black (MAX_DEPTH - 1)
              (applyM (clone initial_board) mv) false)
          (prioritized initial_board) ⊥ none ∧
      ∃ m, get_move Player.black initial_board = some m ∧
        m ∈ get_valid_moves initial_board) :=
  ⟨by decide, (get_move_spec Player.black initial_board).2 (by decide)⟩

set_option maxRecDepth 4000000 in
/-- C5 counterexample: on `cexBoard` the legal moves are `(0,0)` and
`(5,3)`; the corner filter makes `get_move` search only `(0,0)` and
return it, although the legal move `(5,3)` has strictly greater minimax
value at depth `MAX_DEPTH - 1`.  So the returned move is not the argmax
over all legal moves, and the corner preference changes *which* moves
are considered, not just their order. -/
theorem get_move_corner_filter_cex :
    get_move Player.black cexBoard = some (0, 0) ∧
    (5, 3) ∈ get_valid_moves cexBoard ∧
    minimaxValue Player.black (MAX_DEPTH - 1) (applyM (clone cexBoard) (0, 0)) false
      < minimaxValue Player.black (MAX_DEPTH - 1)
          (applyM (clone cexBoard) (5, 3)) false := by
  refine ⟨by decide, by decide, by decide⟩

/-! ## C7: what `MCTSAI.get_move` returns -/

theorem MCTSNode.board_mk (b : OthelloBoard) (m : Option (Nat × Nat)) (v : Nat) (w : ℚ)
    (u : List (Nat × Nat)) (c : List MCTSNode) : (MCTSNode.mk b m v w u c).board = b := rfl

theorem MCTSNode.move_mk (b : OthelloBoard) (m : Option (Nat × Nat)) (v : Nat) (w : ℚ)
    (u : List (Nat × Nat)) (c : List MCTSNode) : (MCTSNode.mk b m v w u c).move = m := rfl

theorem MCTSNode.wins_mk (b : OthelloBoard) (m : Option (Nat × Nat)) (v : Nat) (w : ℚ)
    (u : List (Nat × Nat)) (c : List MCTSNode) : (MCTSNode.mk b m v w u c).wins = w := rfl

theorem MCTSNode.untried_mk (b : OthelloBoard) (m : Option (Nat × Nat)) (v : Nat) (w : ℚ)
    (u : List (Nat × Nat)) (c : List MCTSNode) :
    (MCTSNode.mk b m v w u c).untried_moves = u := rfl

theorem MCTSNode.children_mk (b : OthelloBoard) (m : Option (Nat × Nat)) (v : Nat) (w : ℚ)
    (u : List (Nat × Nat)) (c : List MCTSNode) :
    (MCTSNode.mk b m v w u c).children = c := rfl

theorem rows_countP_le (l : List (List Cell)) (h : ∀ row ∈ l, row.length = 8) :
    (l.map fun row => row.countP fun cell => cell.isSome).sum ≤ 8 * l.length := by
  induction l with
  | nil => simp
  | cons row l ih =>
    rw [List.map_cons, List.sum_cons, List.length_cons]
    have h1 : row.countP (fun cell => cell.isSome) ≤ 8 := by
      calc row.countP (fun cell => cell.isSome) ≤ row.length := List.countP_le_length _
        _ = 8 := h row (List.mem_cons_self _ _)
    have h2 := ih fun r hr => h r (List.mem_cons_of_mem _ hr)
    omega

theorem pieceCount_le_64 {b : OthelloBoard} (hwf : WF b) : pieceCount b.board ≤ 64 := by
  have := rows_countP_le b.board hwf.2
  rw [hwf.1] at this
  exact this

theorem get_mod_mem {α : Type} (l : List α) (hne : l ≠ []) (i : Nat) :
    ∃ x ∈ l, l.get? (i % l.length) = some x := by
  have hlt : i % l.length < l.length := Nat.mod_lt _ (List.length_pos.mpr hne)
  obtain ⟨x, hx⟩ := Option.isSome_iff_exists.mp (get?_isSome_of_lt hlt)
  exact ⟨x, List.get?_mem hx, hx⟩

theorem applyM_spec {b : OthelloBoard} (hwf : WF b) {m : Nat × Nat}
    (hm : m ∈ get_valid_moves b) :
    make_move b (Int.ofNat m.1) (Int.ofNat m.2) = some (true, applyM b m) ∧
      pieceCount (applyM b m).board = pieceCount b.board + 1 ∧ WF (applyM b m) := by
  obtain ⟨-, -, hv⟩ := mem_get_valid_moves.mp hm
  obtain ⟨b', hb'⟩ := make_move_eq_valid hv
  have happ : applyM b m = b' := by
    unfold applyM
    rw [hb']
    rfl
  rw [happ]
  obtain ⟨hc, hw⟩ := make_move_true_spec hwf hb'
  exact ⟨hb', hc, hw⟩

theorem applyM_clone {b : OthelloBoard} {m : Nat × Nat} :
    applyM (clone b) m = applyM b m := rfl

theorem simulateResult_nonneg (ai : Player) (b : OthelloBoard) :
    0 ≤ simulateResult ai b := by
  unfold simulateResult
  dsimp only
  split <;> split <;> norm_num

theorem simulateFrom_spec (ai : Player) (g : Nat → Nat) :
    ∀ (n : Nat) (b : OthelloBoard) (k : Nat), WF b →
      (2 * (64 - pieceCount b.board) + 2 ≤ n ∨
        (2 * (64 - pieceCount b.board) + 1 ≤ n ∧ get_valid_moves b ≠ [])) →
      ∃ r k', simulateFrom ai g n k b = some (r, k') ∧ 0 ≤ r := by
  intro n
  induction n with
  | zero =>
    intro b k hwf hcond
    exact absurd hcond (by omega)
  | succ n ih =>
    intro b k hwf hcond
    rw [simulateFrom]
    by_cases hvm : get_valid_moves b = []
    · rw [if_pos hvm]
      by_cases hvm' : get_valid_moves
          { b with current_player := _opposite_color b.current_player } = []
      · rw [if_pos hvm']
        exact ⟨_, k, rfl, simulateResult_nonneg _ _⟩
      · rw [if_neg hvm']
        refine ih { b with current_player := _opposite_color b.current_player } k
          ⟨hwf.1, hwf.2⟩ (Or.inr ⟨?_, hvm'⟩)
        show 2 * (64 - pieceCount b.board) + 1 ≤ n
        rcases hcond with h | ⟨-, h⟩
        · omega
        · exact absurd hvm h
    · rw [if_neg hvm]
      obtain ⟨m, hmem, hget⟩ := get_mod_mem (get_valid_moves b) hvm (g k)
      rw [hget]
      obtain ⟨heq, hcount, hwf'⟩ := applyM_spec hwf hmem
      show ∃ r k', simulateFrom ai g n (k + 1) (applyM b m) = some (r, k') ∧ 0 ≤ r
      refine ih (applyM b m) (k + 1) hwf' (Or.inl ?_)
      have hle := pieceCount_le_64 hwf'
      rw [hcount] at hle ⊢
      omega

theorem tierChoice_spec (g : Nat → Nat) (k : Nat) (untried : List (Nat × Nat))
    (hne : untried ≠ []) :
    ∃ m, tierChoice g k untried = some (m, k + 1) ∧ m ∈ untried := by
  simp only [tierChoice]
  split
  · rename_i hc
    obtain ⟨m, hm, hget⟩ := get_mod_mem _ hc (g k)
    rw [hget]
    exact ⟨m, rfl, List.mem_of_mem_filter hm⟩
  · rename_i hc
    split
    · rename_i he
      obtain ⟨m, hm, hget⟩ := get_mod_mem _ he (g k)
      rw [hget]
      exact ⟨m, rfl, List.mem_of_mem_filter hm⟩
    · rename_i he
      obtain ⟨m, hm⟩ := List.exists_mem_of_ne_nil untried hne
      have h1 : isCorner m = false := by
        by_contra hcm
        rw [Bool.not_eq_false] at hcm
        exact hc (List.ne_nil_of_mem (List.mem_filter.mpr ⟨hm, hcm⟩))
      have h2 : isEdge m = false := by
        by_contra hem
        rw [Bool.not_eq_false] at hem
        exact he (List.ne_nil_of_mem (List.mem_filter.mpr ⟨hm, by simp [h1, hem]⟩))
      have hoth : untried.filter (fun m => !isCorner m && !isEdge m) ≠ [] :=
        List.ne_nil_of_mem (List.mem_filter.mpr ⟨hm, by simp [h1, h2]⟩)
      obtain ⟨m', hm', hget⟩ := get_mod_mem _ hoth (g k)
      rw [hget]
      exact ⟨m', rfl, List.mem_of_mem_filter hm'⟩

theorem mctsIterate_spec (ai : Player) (g u : Nat → Nat) :
    ∀ (t : MCTSNode) (k : Nat), GoodTree t →
      ∃ t' r k', mctsIterate ai g u k t = some (t', r, k') ∧
        GoodTree t' ∧
        t'.move = t.move ∧
        0 ≤ r ∧
        t'.wins = t.wins + r ∧
        (∀ mv ∈ t'.untried_moves, mv ∈ t.untried_moves) ∧
        ((∀ c ∈ t.children, 0 ≤ c.wins) → 0 ≤ r → ∀ c ∈ t'.children, 0 ≤ c.wins) ∧
        (∀ c ∈ t'.children,
          (∃ c₀ ∈ t.children, c.move = c₀.move) ∨
            ∃ mv ∈ t.untried_moves, c.move = some mv) ∧
        ((t.untried_moves ≠ [] ∨ t.children ≠ []) → t'.children ≠ []) := by
  suffices H : ∀ (N : Nat) (t : MCTSNode), sizeOf t < N → ∀ k, GoodTree t →
      ∃ t' r k', mctsIterate ai g u k t = some (t', r, k') ∧
        GoodTree t' ∧
        t'.move = t.move ∧
        0 ≤ r ∧
        t'.wins = t.wins + r ∧
        (∀ mv ∈ t'.untried_moves, mv ∈ t.untried_moves) ∧
        ((∀ c ∈ t.children, 0 ≤ c.wins) → 0 ≤ r → ∀ c ∈ t'.children, 0 ≤ c.wins) ∧
        (∀ c ∈ t'.children,
          (∃ c₀ ∈ t.children, c.move = c₀.move) ∨
            ∃ mv ∈ t.untried_moves, c.move = some mv) ∧
        ((t.untried_moves ≠ [] ∨ t.children ≠ []) → t'.children ≠ []) by
    exact fun t k hg => H (sizeOf t + 1) t (Nat.lt_succ_self _) k hg
  intro N
  induction N with
  | zero =>
    intro t h
    exact absurd h (Nat.not_lt_zero _)
  | succ N ihN =>
    intro t hszt k hg
    cases hg with
    | mk board move visits wins untried children hwfb huntried hchildren =>
    rw [mctsIterate.eq_def]
    dsimp only
    by_cases hu : untried = []
    · subst hu
      rw [if_pos rfl]
      cases children with
      | nil =>
        dsimp only
        obtain ⟨r, k', hsim, hr⟩ := simulateFrom_spec ai g SIM_FUEL board k hwfb
          (Or.inl (by have := pieceCount_le_64 hwfb; unfold SIM_FUEL; omega))
        rw [hsim]
        refine ⟨_, r, k', rfl, ?_, rfl, hr, rfl, ?_, ?_, ?_, ?_⟩
        · exact GoodTree.mk board move (visits + 1) (wins + r) [] [] hwfb
            (fun mv h => absurd h (List.not_mem_nil mv)) (fun c h => absurd h (List.not_mem_nil c))
        · intro mv h
          exact absurd h (List.not_mem_nil mv)
        · intro _ _ c h
          exact absurd h (List.not_mem_nil c)
        · intro c h
          exact absurd h (List.not_mem_nil c)
        · rintro (h | h) <;> exact absurd rfl h
      | cons c0 cs =>
        dsimp only
        have hi : u k % (c0 :: cs).length < (c0 :: cs).length :=
          Nat.mod_lt _ (Nat.succ_pos _)
        have hchmem : (c0 :: cs).get ⟨u k % (c0 :: cs).length, hi⟩ ∈ c0 :: cs :=
          List.get_mem _ _ _
        have hsz : sizeOf ((c0 :: cs).get ⟨u k % (c0 :: cs).length, hi⟩) < N := by
          have h1 : sizeOf ((c0 :: cs).get ⟨u k % (c0 :: cs).length, hi⟩)
              < sizeOf (c0 :: cs) := List.sizeOf_lt_of_mem hchmem
          have h2 : sizeOf (c0 :: cs)
              < sizeOf (MCTSNode.mk board move visits wins [] (c0 :: cs)) := by
            simp only [MCTSNode.mk.sizeOf_spec]
            omega
          omega
        obtain ⟨c', r, k', hrec, hgood', hmove', hr, hwins', hsub', hwpres', hmvs', hne'⟩ :=
          ihN _ hsz (k + 1) (hchildren _ hchmem)
        rw [hrec]
        refine ⟨_, r, k', rfl, ?_, rfl, hr, rfl, ?_, ?_, ?_, ?_⟩
        · refine GoodTree.mk board move (visits + 1) (wins + r) [] _ hwfb
            (fun mv h => absurd h (List.not_mem_nil mv)) ?_
          intro c hc
          rcases List.mem_or_eq_of_mem_set hc with h | rfl
          · exact hchildren c h
          · exact hgood'
        · intro mv h
          exact absurd h (List.not_mem_nil mv)
        · intro hw _ c hc
          rcases List.mem_or_eq_of_mem_set hc with h | rfl
          · exact hw c h
          · rw [hwins']
            exact add_nonneg (hw _ hchmem) hr
        · intro c hc
          rcases List.mem_or_eq_of_mem_set hc with h | rfl
          · exact Or.inl ⟨c, h, rfl⟩
          · exact Or.inl ⟨_, hchmem, hmove'⟩
        · intro _
          show (c0 :: cs).set (u k % (c0 :: cs).length) c' ≠ []
          intro hnil
          have hlen := congrArg List.length hnil
          rw [List.length_set] at hlen
          simp at hlen
    · rw [if_neg hu]
      obtain ⟨m, htc, hmem⟩ := tierChoice_spec g k untried hu
      rw [htc]
      simp only [Option.some_bind]
      have hmv : m ∈ get_valid_moves board := huntried m hmem
      obtain ⟨-, -, hwfnb⟩ := applyM_spec hwfb hmv
      obtain ⟨r, k', hsim, hr⟩ := simulateFrom_spec ai g SIM_FUEL (applyM board m) (k + 1)
        hwfnb (Or.inl (by have := pieceCount_le_64 hwfnb; unfold SIM_FUEL; omega))
      rw [show applyM (clone board) m = applyM board m from rfl, hsim]
      refine ⟨_, r, k', rfl, ?_, rfl, hr, rfl, ?_, ?_, ?_, ?_⟩
      · refine GoodTree.mk board move (visits + 1) (wins + r) (untried.erase m) _ hwfb
          (fun mv h => huntried mv (List.erase_subset _ _ h)) ?_
        intro c hc
        rcases List.mem_append.mp hc with h | h
        · exact hchildren c h
        · rw [List.mem_singleton.mp h]
          exact GoodTree.mk _ (some m) 1 r _ [] hwfnb (fun mv h => h)
            (fun c h => absurd h (List.not_mem_nil c))
      · intro mv h
        exact List.erase_subset _ _ h
      · intro hw _ c hc
        rcases List.mem_append.mp hc with h | h
        · exact hw c h
        · rw [List.mem_singleton.mp h]
          exact hr
      · intro c hc
        rcases List.mem_append.mp hc with h | h
        · exact Or.inl ⟨c, h, rfl⟩
        · rw [List.mem_singleton.mp h]
          exact Or.inr ⟨m, hmem, rfl⟩
      · intro _
        exact List.append_ne_nil_of_right_ne_nil _ (by simp)

theorem bestChild_result :
    ∀ (cs : List MCTSNode) (bm : Option (Nat × Nat)) (br : ℚ),
      bestChild cs bm br = bm ∨ ∃ c ∈ cs, bestChild cs bm br = c.move := by
  intro cs
  induction cs with
  | nil => intro bm br; exact Or.inl rfl
  | cons c cs ih =>
    intro bm br
    rw [bestChild]
    split
    · rcases ih c.move (c.wins / (c.visits : ℚ)) with h | ⟨c', hc', h⟩
      · exact Or.inr ⟨c, List.mem_cons_self c cs, h⟩
      · exact Or.inr ⟨c', List.mem_cons_of_mem c hc', h⟩
    · rcases ih bm br with h | ⟨c', hc', h⟩
      · exact Or.inl h
      · exact Or.inr ⟨c', List.mem_cons_of_mem c hc', h⟩

theorem bestChild_some (cs : List MCTSNode) (hne : cs ≠ [])
    (hw : ∀ c ∈ cs, 0 ≤ c.wins) :
    ∃ c ∈ cs, bestChild cs none (-1) = c.move := by
  cases cs with
  | nil => exact absurd rfl hne
  | cons c cs =>
    rw [bestChild]
    rw [if_pos (lt_of_lt_of_le (by norm_num)
      (div_nonneg (hw c (List.mem_cons_self c cs)) (Nat.cast_nonneg c.visits)))]
    rcases bestChild_result cs c.move (c.wins / (c.visits : ℚ)) with h | ⟨c', hc', h⟩
    · exact ⟨c, List.mem_cons_self c cs, h⟩
    · exact ⟨c', List.mem_cons_of_mem c hc', h⟩

theorem mctsLoop_spec (ai : Player) (g u : Nat → Nat) (vb : List (Nat × Nat)) :
    ∀ (n k : Nat) (t : MCTSNode), GoodTree t →
      (∀ mv ∈ t.untried_moves, mv ∈ vb) →
      (∀ c ∈ t.children, 0 ≤ c.wins ∧ ∃ mv ∈ vb, c.move = some mv) →
      ∃ t', mctsLoop ai g u n k t = some t' ∧
        (∀ c ∈ t'.children, 0 ≤ c.wins ∧ ∃ mv ∈ vb, c.move = some mv) ∧
        (t.children ≠ [] → t'.children ≠ []) ∧
        (1 ≤ n → t.untried_moves ≠ [] → t'.children ≠ []) := by
  intro n
  induction n with
  | zero =>
    intro k t _ _ hch
    exact ⟨t, rfl, hch, fun h => h, fun h => absurd h (by omega)⟩
  | succ n ih =>
    intro k t hg hun hch
    obtain ⟨t₁, r, k₁, hit, hg₁, hmv₁, hr₁, hwins₁, hsub₁, hwp₁, hmvs₁, hne₁⟩ :=
      mctsIterate_spec ai g u t k hg
    have hch₁ : ∀ c ∈ t₁.children, 0 ≤ c.wins ∧ ∃ mv ∈ vb, c.move = some mv := by
      intro c hc
      constructor
      · exact hwp₁ (fun c h => (hch c h).1) hr₁ c hc
      · rcases hmvs₁ c hc with ⟨c₀, hc₀, hm⟩ | ⟨mv, hmv, hm⟩
        · obtain ⟨-, mv, hmvvb, hcm⟩ := hch c₀ hc₀
          exact ⟨mv, hmvvb, hm.trans hcm⟩
        · exact ⟨mv, hun mv hmv, hm⟩
    obtain ⟨t', hloop, hch', hne', -⟩ :=
      ih k₁ t₁ hg₁ (fun mv h => hun mv (hsub₁ mv h)) hch₁
    refine ⟨t', ?_, hch', ?_, ?_⟩
    · rw [mctsLoop, hit]
      simp only [Option.some_bind]
      exact hloop
    · intro h
      exact hne' (hne₁ (Or.inr h))
    · intro _ h
      exact hne' (hne₁ (Or.inl h))

/-- C7 (amended): with `iterations = 0`, `get_move` returns `None`
unconditionally — the loop never runs, the root has no children, and the
final scan over children finds nothing — in particular also on positions
that do have legal moves.  With `iterations ≥ 1` and at least one legal
move, it returns one of the position's legal moves, for every choice of
the randomness/UCT oracles. -/
theorem mcts_get_move_spec (ai : Player) (g u : Nat → Nat) (b : OthelloBoard) :
    mcts_get_move ai 0 g u b = some none ∧
    (∀ iterations : Nat, 1 ≤ iterations → WF b → get_valid_moves b ≠ [] →
      ∃ m, mcts_get_move ai iterations g u b = some (some m) ∧
        m ∈ get_valid_moves b) := by
  constructor
  · unfold mcts_get_move
    split
    · rfl
    · rfl
  · intro iters hiters hwf hne
    unfold mcts_get_move
    rw [if_neg hne]
    have hgood : GoodTree (.mk b none 0 0 (get_valid_moves b) []) :=
      GoodTree.mk b none 0 0 _ [] hwf (fun _ h => h)
        (fun c h => absurd h (List.not_mem_nil c))
    obtain ⟨t', hloop, hch', -, hne'⟩ :=
      mctsLoop_spec ai g u (get_valid_moves b) iters 0 _ hgood (fun _ h => h)
        (fun c h => absurd h (List.not_mem_nil c))
    dsimp only
    rw [hloop]
    have hchne : t'.children ≠ [] := hne' hiters hne
    obtain ⟨c, hc, hbc⟩ := bestChild_some t'.children hchne (fun c h => (hch' c h).1)
    obtain ⟨-, mv, hmvvb, hcm⟩ := hch' c hc
    refine ⟨mv, ?_, hmvvb⟩
    simp only [Option.map_some']
    rw [hbc, hcm]

/-- C7 counterexample to the claim as stated: with `iterations = 0` the
initial board has legal moves, yet `get_move` returns `None`. -/
theorem mcts_zero_returns_none_cex :
    get_valid_moves initial_board ≠ [] ∧
      mcts_get_move Player.black 0 (fun k => k) (fun k => k) initial_board = some none :=
  ⟨by decide, by decide⟩

/-- C7 witness: one iteration on the initial board yields a legal
move. -/
theorem mcts_get_move_spec_witness :
    (1 ≤ 1 ∧ WF initial_board ∧ get_valid_moves initial_board ≠ []) ∧
      (∃ m, mcts_get_move Player.black 1 (fun k => k) (fun k => k) initial_board
          = some (some m) ∧ m ∈ get_valid_moves initial_board) :=
  ⟨⟨by decide, by decide, by decide⟩,
    (mcts_get_move_spec Player.black (fun k => k) (fun k => k) initial_board).2 1
      (by decide) (by decide) (by decide)⟩

/-! ## C8: `clone` shares no mutable state with the original -/

theorem writeRows_get?_ne :
    ∀ (addrs : List Nat) (σ : Heap) (rows : Grid) (a : Nat),
      (∀ x ∈ addrs, a ≠ x) → (writeRows σ addrs rows).get? a = σ.get? a := by
  intro addrs
  induction addrs with
  | nil => intro σ rows a _; cases rows <;> rfl
  | cons a1 rest ih =>
    intro σ rows a h
    cases rows with
    | nil => rfl
    | cons r1 rrest =>
      rw [writeRows, ih (σ.set a1 r1) rrest a fun x hx => h x (List.mem_cons_of_mem _ hx)]
      rw [List.get?_eq_getElem?, List.get?_eq_getElem?]
      exact List.getElem?_set_ne (fun he => h a1 (List.mem_cons_self _ _) he.symm)

theorem readRow_append {σ ext : Heap} {a : Nat} (h : a < σ.length) :
    readRow (σ ++ ext) a = readRow σ a := by
  unfold readRow
  rw [List.get?_append h]

theorem readRow_append_right (σ ext : Heap) (i : Nat) :
    readRow (σ ++ ext) (σ.length + i) = (ext.get? i).getD [] := by
  unfold readRow
  rw [List.get?_append_right (by omega)]
  congr 2
  omega

theorem cloneH_view (σ : Heap) (hb : HBoard) :
    viewB (cloneH σ hb).1 (cloneH σ hb).2 = viewB σ hb := by
  unfold cloneH viewB
  congr 1
  rw [List.map_map]
  apply List.ext_getElem
  · simp
  · intro i h1 h2
    simp only [List.getElem_map, List.getElem_range, Function.comp_apply]
    rw [readRow_append_right, List.get?_map, List.get?_eq_getElem?,
      List.getElem?_eq_getElem (show i < hb.rows.length by simpa using h2)]
    rfl

/-- C8: on the explicit heap, `clone` yields a board whose cells and
`current_player` equal the original's, and a subsequent `make_move` on
the clone — whatever it does — leaves every cell and the player of the
original board unchanged, because the clone holds only freshly
allocated row arrays. -/
theorem clone_then_move_frame (σ : Heap) (hb : HBoard) (row col : Int)
    (haddr : ∀ a ∈ hb.rows, a < σ.length) :
    viewB (cloneH σ hb).1 (cloneH σ hb).2 = viewB σ hb ∧
    (make_moveH (cloneH σ hb).1 (cloneH σ hb).2 row col).elim (viewB σ hb)
      (fun p => viewB p.2 hb) = viewB σ hb := by
  refine ⟨cloneH_view σ hb, ?_⟩
  unfold make_moveH
  cases make_move (viewB (cloneH σ hb).1 (cloneH σ hb).2) row col with
  | none => rfl
  | some vb =>
    simp only [Option.map_some', Option.elim]
    unfold viewB
    congr 1
    apply List.map_congr_left
    intro a ha
    have hlt : a < σ.length := haddr a ha
    have hne : ∀ x ∈ (cloneH σ hb).2.rows, a ≠ x := by
      intro x hx
      obtain ⟨i, -, rfl⟩ := List.mem_map.mp hx
      omega
    show readRow (writeRows (cloneH σ hb).1 (cloneH σ hb).2.rows vb.2.board) a = readRow σ a
    unfold readRow
    rw [writeRows_get?_ne _ _ _ _ hne]
    show ((σ ++ hb.rows.map (readRow σ)).get? a).getD [] = (σ.get? a).getD []
    rw [List.get?_append hlt]

/-- C8 witness: the initial board laid out on a heap of 8 rows at
addresses 0..7, cloned, then hit with the opening move `(2, 3)`. -/
theorem clone_then_move_frame_witness :
    (∀ a ∈ (List.range 8 : List Nat), a < (initial_board.board : Heap).length) ∧
      (viewB (cloneH initial_board.board ⟨List.range 8, Player.black⟩).1
          (cloneH initial_board.board ⟨List.range 8, Player.black⟩).2 =
        viewB initial_board.board ⟨List.range 8, Player.black⟩ ∧
      (make_moveH (cloneH initial_board.board ⟨List.range 8, Player.black⟩).1
          (cloneH initial_board.board ⟨List.range 8, Player.black⟩).2 2 3).elim
        (viewB initial_board.board ⟨List.range 8, Player.black⟩)
        (fun p => viewB p.2 ⟨List.range 8, Player.black⟩) =
        viewB initial_board.board ⟨List.range 8, Player.black⟩) :=
  ⟨by decide,
    clone_then_move_frame initial_board.board ⟨List.range 8, Player.black⟩ 2 3 (by decide)⟩

end Othello
